import Mathlib

/-!
# Verification of the `site_health` crawler core

This file gives a shallow embedding of `site_health/crawler.py` and of
`select_stratified_sample` from `site_health/performance.py`, together with
theorems about the embedded definitions.

Modelling conventions:

* Python strings are modelled as `List Char` (`Str` below).
* The parts of the Python standard library that `_normalize_url` depends on
  (`urllib.parse.urlsplit`, `urlparse`, `urljoin`, `urlunparse`) are embedded
  following the CPython implementation.  A `ValueError` raised by `urlsplit`
  (the "Invalid IPv6 URL" check for unbalanced brackets in the authority) is
  modelled as `Except.error`.  CPython's WHATWG whitespace stripping and the
  newer bracketed-host validation are not modelled; no theorem below depends
  on inputs containing whitespace or bracketed hosts.
* Network I/O (`httpx`) is abstracted by a `World` record giving, for every
  URL, the outcome of a HEAD request, of a GET request, and of a page fetch.
  `BeautifulSoup` link extraction is abstracted by letting the world return
  the list of raw `href`/`src` attribute values of a fetched page (HTML
  parsing is an external collaborator in the spec).
* `asyncio.gather` completes every task of a batch before the crawl loop
  continues, so the per-layer fan-out is modelled by sequentially folding the
  batch; the properties proved below do not depend on the order chosen
  within a layer.  Exceptions swallowed by `gather(..., return_exceptions=True)`
  are modelled as tasks that leave the state unchanged (or results that are
  skipped by the `isinstance` filter).
-/

namespace SiteHealth

/-- Python `str`, modelled as a list of characters. -/
abbrev Str := List Char

/-- `breakAt c l` splits `l` at the first occurrence of `c`:
`(before, some after)` when `c` occurs in `l`, `(l, none)` otherwise.
This models the `str.find`/`str.split(c, 1)` idiom used by CPython's
`urllib.parse`. -/
def breakAt (c : Char) : Str → Str × Option Str
  | [] => ([], none)
  | a :: as =>
    if a = c then ([], some as)
    else
      let r := breakAt c as
      (a :: r.1, r.2)

/-- Characters that terminate the authority component in `urlsplit`
(CPython `_splitnetloc` looks for `'/'`, `'?'` and `'#'`). -/
def netlocDelim (c : Char) : Bool := c = '/' || c = '?' || c = '#'

/-- Characters allowed in a URL scheme (CPython `scheme_chars`). -/
def isSchemeChar (c : Char) : Bool :=
  c.isAlpha || c.isDigit || c = '+' || c = '-' || c = '.'

/-- Scheme extraction of CPython `urlsplit`: a scheme is recognised when the
first `':'` occurs at a position `i > 0`, the first character is an ASCII
letter and every character before the `':'` is a scheme character; the
recognised scheme is lowercased. -/
def splitScheme (url : Str) : Option (Str × Str) :=
  match breakAt ':' url with
  | (pre, some rest) =>
    match pre with
    | [] => none
    | c :: cs =>
      if c.isAlpha && (c :: cs).all isSchemeChar then
        some ((c :: cs).map Char.toLower, rest)
      else none
  | (_, none) => none

/-- Components of a parsed URL (`urllib.parse.ParseResult`). -/
structure UrlParts where
  scheme : Str
  netloc : Str
  path : Str
  params : Str
  query : Str
  fragment : Str
deriving DecidableEq, Repr

/-- The "Invalid IPv6 URL" check of CPython `urlsplit`: an authority with a
`'['` but no `']'` (or vice versa) raises `ValueError`. -/
def unbalancedBrackets (n : Str) : Bool :=
  (n.contains '[' && !(n.contains ']')) || (n.contains ']' && !(n.contains '['))

/-- Scheme extraction with a default (the `scheme` parameter of
`urlsplit`). -/
def schemeSplit (url dscheme : Str) : Str × Str :=
  match splitScheme url with
  | some sr => sr
  | none => (dscheme, url)

/-- `url.split(c, 1)` keeping only the first part when `c` is absent
(the `'#'`/`'?'` handling of `urlsplit`). -/
def breakDrop (c : Char) (l : Str) : Str × Str :=
  match breakAt c l with
  | (a, some b) => (a, b)
  | (a, none) => (a, [])

/-- CPython `urlsplit(url, scheme=dscheme)` (with `allow_fragments=True`).
`Except.error ()` models the `ValueError` raised for unbalanced brackets in
the authority.  The `params` field of the result is empty (`urlsplit` does
not separate parameters). -/
def urlsplitE (url : Str) (dscheme : Str) : Except Unit UrlParts :=
  let sp := schemeSplit url dscheme
  let scheme := sp.1
  let rest0 := sp.2
  let netloc := if rest0.take 2 = ['/', '/'] then
      (rest0.drop 2).takeWhile (fun c => !(netlocDelim c))
    else []
  let rest1 := if rest0.take 2 = ['/', '/'] then
      (rest0.drop 2).dropWhile (fun c => !(netlocDelim c))
    else rest0
  if unbalancedBrackets netloc then .error () else
  let fr := breakDrop '#' rest1
  let pq := breakDrop '?' fr.1
  .ok ⟨scheme, netloc, pq.1, [], pq.2, fr.2⟩

/-- Schemes for which `urlparse` separates `;parameters` from the path
(CPython `uses_params`). -/
def uses_params : List Str :=
  ["", "ftp", "hdl", "prospero", "http", "imap", "https", "shttp", "rtsp",
   "rtspu", "sip", "sips", "mms", "sftp", "tel"].map String.data

/-- Schemes that support relative references (CPython `uses_relative`). -/
def uses_relative : List Str :=
  ["", "ftp", "http", "gopher", "nntp", "imap", "wais", "file", "https",
   "shttp", "mms", "prospero", "rtsp", "rtspu", "sftp", "svn", "svn+ssh",
   "ws", "wss"].map String.data

/-- Schemes that use an authority component (CPython `uses_netloc`). -/
def uses_netloc : List Str :=
  ["", "ftp", "http", "gopher", "nntp", "telnet", "imap", "wais", "file",
   "mms", "https", "shttp", "snews", "prospero", "rtsp", "rtspu", "rsync",
   "svn", "svn+ssh", "sftp", "nfs", "git", "git+ssh", "ws", "wss"].map
    String.data

/-- The last `'/'`-free segment of a path. -/
def lastSeg (p : Str) : Str := (p.reverse.takeWhile (fun c => !(c = '/'))).reverse

/-- Everything up to and including the last `'/'` of a path. -/
def beforeLastSeg (p : Str) : Str := (p.reverse.dropWhile (fun c => !(c = '/'))).reverse

/-- CPython `_splitparams`: split `;parameters` off the last path segment
(searching from the last `'/'` when the path contains one). -/
def splitparams (p : Str) : Str × Str :=
  if p.contains '/' then
    match breakAt ';' (lastSeg p) with
    | (a, some b) => (beforeLastSeg p ++ a, b)
    | (_, none) => (p, [])
  else
    match breakAt ';' p with
    | (a, some b) => (a, b)
    | (_, none) => (p, [])

/-- CPython `urlparse(url, scheme=dscheme)`: `urlsplit` plus parameter
separation for schemes in `uses_params`. -/
def urlparseE (url : Str) (dscheme : Str) : Except Unit UrlParts :=
  match urlsplitE url dscheme with
  | .error e => .error e
  | .ok P =>
    if P.scheme ∈ uses_params ∧ ';' ∈ P.path then
      let pp := splitparams P.path
      .ok { P with path := pp.1, params := pp.2 }
    else .ok P

/-- CPython `urlunsplit`. -/
def urlunsplit (scheme netloc path query fragment : Str) : Str :=
  let url := path
  let url := if netloc ≠ [] ∨ (url ≠ [] ∧ url.take 2 = ['/', '/']) then
      ['/', '/'] ++ netloc ++ (if url ≠ [] ∧ url.take 1 ≠ ['/'] then '/' :: url else url)
    else url
  let url := if scheme ≠ [] then scheme ++ ':' :: url else url
  let url := if query ≠ [] then url ++ '?' :: query else url
  if fragment ≠ [] then url ++ '#' :: fragment else url

/-- CPython `urlunparse`. -/
def urlunparse (P : UrlParts) : Str :=
  let u := if P.params ≠ [] then P.path ++ ';' :: P.params else P.path
  urlunsplit P.scheme P.netloc u P.query P.fragment

theorem breakAt_some_length {c : Char} :
    ∀ {l a b : Str}, breakAt c l = (a, some b) → b.length < l.length := by
  intro l
  induction l with
  | nil => intro a b h; simp [breakAt] at h
  | cons x xs ih =>
    intro a b h
    by_cases hx : x = c
    · simp [breakAt, hx] at h
      simp [← h.2]
    · simp only [breakAt, if_neg hx] at h
      rcases hr : breakAt c xs with ⟨a', ob⟩
      rw [hr] at h
      cases ob with
      | none => simp at h
      | some b'' =>
        simp only [Prod.mk.injEq, Option.some.injEq] at h
        have hlt := ih (a := a') (b := b'') hr
        have hb : b'' = b := h.2
        subst hb
        simpa using Nat.lt_succ_of_lt hlt

/-- Python `str.split(c)`: split a string on every occurrence of `c`
(the result is never empty).  Structural recursion with an accumulator so
that the kernel can evaluate it. -/
def splitOnAux (c : Char) : Str → Str → List Str
  | [], acc => [acc.reverse]
  | a :: as, acc =>
    if a = c then acc.reverse :: splitOnAux c as []
    else splitOnAux c as (a :: acc)

def splitOn (c : Char) (l : Str) : List Str := splitOnAux c l []

/-- `segments[1:-1] = filter(None, segments[1:-1])` from CPython `urljoin`:
drop empty segments, keeping the first and last elements. -/
def dropEmptyMid : List Str → List Str
  | [] => []
  | [x] => [x]
  | x :: y :: rest =>
    if x = [] then dropEmptyMid (y :: rest) else x :: dropEmptyMid (y :: rest)

def filterMiddle : List Str → List Str
  | [] => []
  | a :: rest => a :: dropEmptyMid rest

/-- The dot-segment resolution loop of CPython `urljoin` (`resolved_path`). -/
def resolveLoop (acc : List Str) : List Str → List Str
  | [] => acc
  | s :: rest =>
    if s = ['.', '.'] then resolveLoop acc.dropLast rest
    else if s = ['.'] then resolveLoop acc rest
    else resolveLoop (acc ++ [s]) rest

def resolveSegs (segs : List Str) : List Str :=
  let r := resolveLoop [] segs
  if segs.getLast? = some ['.'] ∨ segs.getLast? = some ['.', '.'] then r ++ [[]]
  else r

/-- `'/'.join(...)`. -/
def joinSlash : List Str → Str
  | [] => []
  | [a] => a
  | a :: b :: rest => a ++ '/' :: joinSlash (b :: rest)

/-- CPython `urljoin(base, url)`. -/
def urljoinE (base url : Str) : Except Unit Str :=
  if base = [] then .ok url
  else if url = [] then .ok base
  else match urlparseE base [] with
  | .error e => .error e
  | .ok B =>
    match urlparseE url B.scheme with
    | .error e => .error e
    | .ok U =>
      if U.scheme ≠ B.scheme ∨ U.scheme ∉ uses_relative then .ok url
      else if U.scheme ∈ uses_netloc ∧ U.netloc ≠ [] then
        .ok (urlunparse ⟨U.scheme, U.netloc, U.path, U.params, U.query, U.fragment⟩)
      else
        let netloc := if U.scheme ∈ uses_netloc then B.netloc else U.netloc
        if U.path = [] ∧ U.params = [] then
          let query := if U.query = [] then B.query else U.query
          .ok (urlunparse ⟨U.scheme, netloc, B.path, B.params, query, U.fragment⟩)
        else
          let baseParts0 := splitOn '/' B.path
          let baseParts := if baseParts0.getLast? ≠ some ([] : Str) then
              baseParts0.dropLast else baseParts0
          let segments :=
            if U.path.take 1 = ['/'] then splitOn '/' U.path
            else filterMiddle (baseParts ++ splitOn '/' U.path)
          let rp := joinSlash (resolveSegs segments)
          let rp := if rp = [] then ['/'] else rp
          .ok (urlunparse ⟨U.scheme, netloc, rp, U.params, U.query, U.fragment⟩)

/-- `SiteCrawler._normalize_url(url, base_url)` (`crawler.py` lines 43-62):
resolve `url` against `base_url` with `urljoin`, re-parse, and rebuild the
URL with an empty fragment.  A `ValueError` escaping from the underlying
`urllib.parse` calls is modelled as `Except.error`. -/
def normalizeE (url base : Str) : Except Unit Str :=
  match urljoinE base url with
  | .error e => .error e
  | .ok full =>
    match urlparseE full [] with
    | .error e => .error e
    | .ok P => .ok (urlunparse { P with fragment := [] })

/-! ## The crawler data model -/

/-- `site_health/models.py` `LinkResult`.  Response times are modelled as
rationals (all the source does with them is order comparison and
pass-through). -/
structure LinkResult where
  source_url : Str
  target_url : Str
  link_type : Str
  status_code : Option Nat
  response_time : Rat
  severity : Str
  error_message : Option Str
deriving DecidableEq, Repr

/-- Configuration of a `SiteCrawler` instance (`crawler.py` lines 15-32).
`base_domain` and `domain` are the values `__init__` computes from
`start_url`; `mkCrawlerConfig` performs that computation. -/
structure CrawlerConfig where
  start_url : Str
  max_depth : Nat
  timeout : Rat
  base_domain : Str
  domain : Str
deriving DecidableEq, Repr

/-- `SiteCrawler.__init__` lines 29-32: parse the start URL and record
`f"{scheme}://{netloc}"` and the netloc. -/
def mkCrawlerConfig (start_url : Str) (max_depth : Nat) (timeout : Rat) :
    Except Unit CrawlerConfig :=
  match urlparseE start_url [] with
  | .error e => .error e
  | .ok P =>
    .ok { start_url := start_url, max_depth := max_depth, timeout := timeout,
          base_domain := P.scheme ++ (':' :: '/' :: '/' :: P.netloc),
          domain := P.netloc }

/-- Outcome of a single `httpx` request as discriminated by `_check_link`'s
handlers: a response (status code, elapsed seconds), an
`httpx.HTTPStatusError`, an `httpx.TimeoutException`, or any other
exception carrying message `msg`. -/
inductive HttpResult where
  | resp (status : Nat) (elapsed : Rat)
  | statusExc (msg : Str)
  | timeoutExc
  | otherExc (msg : Str)
deriving DecidableEq, Repr

/-- Outcome of the page `GET` in `_crawl_page`: a response with status
code, elapsed seconds, content-type header value, and the raw `href`/`src`
attribute values that BeautifulSoup extracts from the body (HTML parsing is
an external collaborator, so the world supplies the extracted raw values
directly); or an exception with message `msg`. -/
inductive PageOutcome where
  | resp (status : Nat) (elapsed : Rat) (content_type : Str)
      (rawLinks : List Str)
  | exc (msg : Str)
deriving DecidableEq, Repr

/-- The network abstracted: per-URL outcomes of HEAD link checks, GET link
checks, and page fetches. -/
structure World where
  headReq : Str → HttpResult
  getReq : Str → HttpResult
  page : Str → PageOutcome

/-- `str.endswith`: Python compares the suffix of the whole string. -/
def endsWith (l s : Str) : Bool := decide (l.drop (l.length - s.length) = s)

/-- Does `b` start with `a`? -/
def leadsWith : Str → Str → Bool
  | [], _ => true
  | _ :: _, [] => false
  | a :: as, b :: bs => a = b && leadsWith as bs

/-- Python `a in b` substring test. -/
def hasSub (n : Str) : Str → Bool
  | [] => leadsWith n []
  | c :: t => leadsWith n (c :: t) || hasSub n t

/-- The image extensions of `_get_link_type` (line 73). -/
def imageExts : List Str :=
  [".png", ".jpg", ".jpeg", ".gif", ".svg", ".webp", ".ico"].map String.data

/-- `SiteCrawler._is_same_domain` (lines 64-67): parse and compare the
netloc with the crawl domain.  `none` models the `ValueError` that
`urlparse` can raise. -/
def is_same_domainE (cfg : CrawlerConfig) (url : Str) : Option Bool :=
  match urlparseE url [] with
  | .error _ => none
  | .ok P => some (P.netloc = cfg.domain)

/-- `SiteCrawler._get_link_type` (lines 69-82).  Extension tests are
`str.endswith` on the *lowercased full URL string*; only when no extension
matches is `_is_same_domain` consulted.  `none` models the `ValueError`
escaping from `_is_same_domain`. -/
def get_link_typeE (cfg : CrawlerConfig) (url : Str) : Option Str :=
  let l := url.map Char.toLower
  if imageExts.any (fun e => endsWith l e) then some "image".data
  else if endsWith l ".css".data then some "css".data
  else if endsWith l ".js".data then some "js".data
  else match is_same_domainE cfg url with
    | none => none
    | some sd => some (if sd then "page".data else "external".data)

/-- Which HTTP requests `_check_link` issued, in order. -/
inductive ReqEvent where
  | headReq
  | getReq
deriving DecidableEq, Repr

/-- The severity mapping applied to a response in `_check_link`
(lines 100-106). -/
def respSeverity (status : Nat) (rt : Rat) : Str :=
  if 400 ≤ status then "error".data
  else if 300 ≤ status ∨ 5 < rt then "warning".data
  else "success".data

/-- The `LinkResult` built from a response in `_check_link`
(lines 108-116). -/
def okLinkResult (src tgt lt : Str) (status : Nat) (rt : Rat) : LinkResult :=
  ⟨src, tgt, lt, some status, rt, respSeverity status rt, none⟩

/-- The `LinkResult` built by the `TimeoutException` handler
(lines 118-127). -/
def timeoutLinkResult (cfg : CrawlerConfig) (src tgt lt : Str) : LinkResult :=
  ⟨src, tgt, lt, none, cfg.timeout, "error".data, some "Request timeout".data⟩

/-- The `LinkResult` built by the generic `except Exception` handler
(lines 129-138). -/
def excLinkResult (src tgt lt : Str) (msg : Str) : LinkResult :=
  ⟨src, tgt, lt, none, 0, "error".data, some msg⟩

/-- `SiteCrawler._check_link` (lines 84-138): the produced `LinkResult`
(`none` when an exception escapes the method, which happens exactly when
`_get_link_type` raises, before any request is made) together with the
trace of requests issued.  The `try`/`except` nesting is mirrored: only an
`httpx.HTTPStatusError` raised by the HEAD call reaches the inner handler
and triggers the GET fallback; timeouts and other exceptions from either
call reach the outer handlers, and an `HTTPStatusError` from the GET call
reaches the outer `except Exception`. -/
def check_link (cfg : CrawlerConfig) (w : World) (src tgt : Str) :
    Option LinkResult × List ReqEvent :=
  match get_link_typeE cfg tgt with
  | none => (none, [])
  | some lt =>
    match w.headReq tgt with
    | .resp s t => (some (okLinkResult src tgt lt s t), [.headReq])
    | .timeoutExc => (some (timeoutLinkResult cfg src tgt lt), [.headReq])
    | .otherExc m => (some (excLinkResult src tgt lt m), [.headReq])
    | .statusExc _ =>
      match w.getReq tgt with
      | .resp s t => (some (okLinkResult src tgt lt s t), [.headReq, .getReq])
      | .timeoutExc =>
        (some (timeoutLinkResult cfg src tgt lt), [.headReq, .getReq])
      | .statusExc m =>
        (some (excLinkResult src tgt lt m), [.headReq, .getReq])
      | .otherExc m =>
        (some (excLinkResult src tgt lt m), [.headReq, .getReq])

/-- Python `set.add` on an insertion-ordered list model of a set. -/
def setInsert (l : List Str) (x : Str) : List Str :=
  if x ∈ l then l else l ++ [x]

/-- `SiteCrawler._extract_links` (lines 140-169): normalize every raw
attribute value against the page URL, collecting nonempty results into a
set; a `ValueError` from `_normalize_url` escapes and aborts the whole
extraction. -/
def extract_linksE (rawLinks : List Str) (page_url : Str) :
    Except Unit (List Str) :=
  rawLinks.foldlM (fun acc raw =>
    match normalizeE raw page_url with
    | .error e => .error e
    | .ok u => .ok (if u ≠ [] then setInsert acc u else acc)) []

/-! ## Crawl scheduler -/

/-- Ghost events recording the observable steps of a crawl in program
order.  They are used only to state temporal/invariant properties; each
constructor corresponds to a program point of the source:
`deq` = lines 186-190 (an unvisited URL is popped, marked visited and gets
its depth recorded), `fetchPage` = line 221 (page GET issued),
`checkLink` = a `_check_link` result appended to `results`,
`enq` = line 258 (entry appended to the frontier). -/
inductive CrawlEv where
  | deq (url : Str) (depth : Nat)
  | fetchPage (url : Str) (depth : Nat)
  | checkLink (src tgt : Str) (depth : Nat)
  | enq (url : Str) (depth : Nat)
deriving DecidableEq, Repr

/-- Crawler state (`crawler.py` lines 34-38) plus the ghost `trace`. -/
structure CrawlState where
  visited : List Str
  results : List LinkResult
  pages_crawled : Nat
  depth_map : Str → Option Nat
  trace : List CrawlEv

/-- The page-level error `LinkResult` for `status >= 400`
(lines 223-233). -/
def pageHttpErrResult (url : Str) (status : Nat) (elapsed : Rat) :
    LinkResult :=
  ⟨url, url, "page".data, some status, elapsed, "error".data,
   some ("HTTP ".data ++ (Nat.repr status).data)⟩

/-- The page-level error `LinkResult` built by the `except Exception`
handler of `_crawl_page` (lines 260-269). -/
def pageExcResult (url : Str) (msg : Str) : LinkResult :=
  ⟨url, url, "page".data, none, 0, "error".data, some msg⟩

/-- The body of the `for result in link_results` loop of `_crawl_page`
(lines 249-258): append the `LinkResult` (skipping swallowed exceptions,
mirroring the `isinstance` filter after
`asyncio.gather(..., return_exceptions=True)`) and enqueue same-domain,
non-error `page` targets not yet visited while `depth < max_depth`. -/
def checkStep (cfg : CrawlerConfig) (w : World) (url : Str) (depth : Nat)
    (p : CrawlState × List (Str × Nat)) (link : Str) :
    CrawlState × List (Str × Nat) :=
  match check_link cfg w url link with
  | (none, _) => p
  | (some r, _) =>
    let st' :=
      { p.1 with
        results := p.1.results ++ [r]
        trace := p.1.trace ++ [CrawlEv.checkLink url link depth] }
    if depth < cfg.max_depth ∧ r.link_type = "page".data ∧
       r.severity ≠ "error".data ∧ r.target_url ∉ st'.visited then
      ({ st' with trace := st'.trace ++ [CrawlEv.enq r.target_url (depth + 1)] },
       p.2 ++ [(r.target_url, depth + 1)])
    else (st', p.2)

/-- `SiteCrawler._crawl_page` (lines 202-269), returning the updated state
and frontier.  An exception escaping the coroutine (possible only from
`_is_same_domain`/`_check_link` before the `try` block) is swallowed by
`asyncio.gather(..., return_exceptions=True)` in `crawl`, so it leaves
state and frontier unchanged.  Results of the link-check fan-out are
processed in the deduplicated insertion order of the extracted set (the
source iterates a Python `set`; no claim below depends on that order). -/
def crawl_page (cfg : CrawlerConfig) (w : World) (url : Str) (depth : Nat)
    (st : CrawlState) (queue : List (Str × Nat)) :
    CrawlState × List (Str × Nat) :=
  match is_same_domainE cfg url with
  | none => (st, queue)
  | some false =>
    match check_link cfg w url url with
    | (some r, _) =>
      ({ st with
         results := st.results ++ [r]
         trace := st.trace ++ [CrawlEv.checkLink url url depth] }, queue)
    | (none, _) => (st, queue)
  | some true =>
    let st := { st with trace := st.trace ++ [CrawlEv.fetchPage url depth] }
    match w.page url with
    | .exc m =>
      ({ st with results := st.results ++ [pageExcResult url m] }, queue)
    | .resp status elapsed ctype raws =>
      if 400 ≤ status then
        ({ st with results := st.results ++ [pageHttpErrResult url status elapsed] },
         queue)
      else
        let st := { st with pages_crawled := st.pages_crawled + 1 }
        if hasSub "text/html".data ctype then
          match extract_linksE raws url with
          | .error _ =>
            ({ st with results := st.results ++ [pageExcResult url "Invalid IPv6 URL".data] },
             queue)
          | .ok links =>
            links.foldl (checkStep cfg w url depth) (st, queue)
        else (st, queue)

/-- The inner drain loop of `crawl` (lines 185-190): pop consecutive
frontier entries whose depth equals `d`; each unvisited popped URL joins
the batch, is added to `visited`, and has its depth recorded in
`depth_map`.  Returns `(batch, remaining frontier, state)`. -/
def drainLoop (d : Nat) : List (Str × Nat) → CrawlState →
    List (Str × Nat) × List (Str × Nat) × CrawlState
  | [], st => ([], [], st)
  | (url, depth) :: rest, st =>
    if depth = d then
      if url ∈ st.visited then drainLoop d rest st
      else
        let st' : CrawlState :=
          { st with
            visited := st.visited ++ [url]
            depth_map := fun u => if u = url then some depth else st.depth_map u
            trace := st.trace ++ [CrawlEv.deq url depth] }
        let r := drainLoop d rest st'
        ((url, depth) :: r.1, r.2.1, r.2.2)
    else ([], (url, depth) :: rest, st)

/-- Processing of one batch member inside `asyncio.gather` (line 193-198):
run `_crawl_page` for the entry against the shared state and frontier. -/
def batchStep (cfg : CrawlerConfig) (w : World)
    (p : CrawlState × List (Str × Nat)) (e : Str × Nat) :
    CrawlState × List (Str × Nat) :=
  crawl_page cfg w e.1 e.2 p.1 p.2

/-- The `while queue` loop of `crawl` (lines 180-198): read the head depth,
drain the batch, process it (the `asyncio.gather` barrier completes every
`_crawl_page` task of the batch — including its link-check fan-out — before
the loop continues), repeat.  `fuel` bounds the number of iterations; the
source loop terminates because all frontier entries of one iteration share
a single depth, enqueued entries have depth one larger, and nothing is
enqueued past `max_depth`, so `crawl` passes `max_depth + 2`. -/
def crawlLoop (cfg : CrawlerConfig) (w : World) :
    Nat → List (Str × Nat) → CrawlState → CrawlState
  | _, [], st => st
  | 0, _ :: _, st => st
  | fuel + 1, (u0, d0) :: qrest, st =>
    let r := drainLoop d0 ((u0, d0) :: qrest) st
    let p := r.1.foldl (batchStep cfg w) (r.2.2, r.2.1)
    crawlLoop cfg w fuel p.2 p.1

/-- `SiteCrawler.crawl` (lines 171-200): clear `visited`, `results` and
`pages_crawled` — but not `depth_map` — seed the frontier with
`(start_url, 0)`, and process layer by layer. -/
def crawl (cfg : CrawlerConfig) (w : World) (st0 : CrawlState) : CrawlState :=
  crawlLoop cfg w (cfg.max_depth + 2) [(cfg.start_url, 0)]
    { visited := [], results := [], pages_crawled := 0,
      depth_map := st0.depth_map, trace := [] }

/-- URLs dequeued (popped unvisited, marked visited) during a crawl. -/
def deqUrls (tr : List CrawlEv) : List Str :=
  tr.filterMap fun e => match e with | .deq u _ => some u | _ => none

/-- Dequeue events with their depths. -/
def deqEvents (tr : List CrawlEv) : List (Str × Nat) :=
  tr.filterMap fun e => match e with | .deq u d => some (u, d) | _ => none

/-- URLs for which a page fetch was issued, with the processing depth. -/
def fetchEvents (tr : List CrawlEv) : List (Str × Nat) :=
  tr.filterMap fun e => match e with | .fetchPage u d => some (u, d) | _ => none

/-- Frontier append events (url, enqueued depth). -/
def enqEvents (tr : List CrawlEv) : List (Str × Nat) :=
  tr.filterMap fun e => match e with | .enq u d => some (u, d) | _ => none

/-- The breadth-first layer an event belongs to: processing events carry
their layer's depth, and an enqueue onto layer `d + 1` happens while layer
`d` is being processed. -/
def evLayer : CrawlEv → Nat
  | .deq _ d => d
  | .fetchPage _ d => d
  | .checkLink _ _ d => d
  | .enq _ d => d - 1

/-! ## Stratified sampling (`performance.py` lines 186-236) -/

/-- Python `int(x)` on a float/rational: truncation toward zero. -/
def intTrunc (x : Rat) : Int := if 0 ≤ x then x.floor else -((-x).floor)

/-- Python `set.update`. -/
def setInsertAll (l : List Str) (xs : List Str) : List Str :=
  xs.foldl setInsert l

/-- `select_stratified_sample(all_pages, homepage, depth_map, sample_rate)`.
The `random.sample(remaining, k)` draw is abstracted by `sampler`; the
theorems below hold for every `sampler`, in particular for any random
draw. -/
def select_stratified_sample (all_pages : List Str) (homepage : Str)
    (depth_map : Str → Option Nat) (sample_rate : Rat)
    (sampler : List Str → Nat → List Str) : List Str :=
  let selected : List Str :=
    if homepage ∈ all_pages then setInsert [] homepage else []
  let selected := all_pages.foldl (fun sel url =>
      if (depth_map url).getD 999 = 1 then setInsert sel url else sel) selected
  let target : Int :=
    max (selected.length : Int) (intTrunc ((all_pages.length : Rat) * sample_rate))
  let remaining_needed : Int := target - (selected.length : Int)
  if 0 < remaining_needed then
    let remaining := all_pages.filter (fun u => decide (u ∉ selected))
    if (remaining.length : Int) ≤ remaining_needed then
      setInsertAll selected remaining
    else
      setInsertAll selected (sampler remaining remaining_needed.toNat)
  else selected

/-! ## Concrete fixtures for witnesses and counterexamples -/

/-- The configuration `SiteCrawler("http://a", max_depth=2, timeout=10.0)`
computes in `__init__`. -/
def cfgA : CrawlerConfig :=
  { start_url := "http://a".data, max_depth := 2, timeout := 10,
    base_domain := "http://a".data, domain := "a".data }

theorem cfgA_matches_init : mkCrawlerConfig "http://a".data 2 10 = .ok cfgA := by
  rfl

/-- The empty prior crawler state (fresh `SiteCrawler` instance). -/
def stEmpty : CrawlState :=
  { visited := [], results := [], pages_crawled := 0,
    depth_map := fun _ => none, trace := [] }

/-- A world in which `http://a` links to `/p` and `/q`, both of which link
to `/c`; every link check responds `200`. -/
def wDiamond : World :=
  { headReq := fun _ => .resp 200 0
    getReq := fun _ => .resp 200 0
    page := fun u =>
      if u = "http://a".data then
        .resp 200 0 "text/html".data ["/p".data, "/q".data]
      else if u = "http://a/p".data then
        .resp 200 0 "text/html".data ["/c".data]
      else if u = "http://a/q".data then
        .resp 200 0 "text/html".data ["/c".data]
      else if u = "http://a/c".data then
        .resp 200 0 "text/html".data []
      else .exc "nope".data }

/-- A world in which the homepage contains one good relative link and one
raw link that `urlparse` cannot parse (unbalanced bracket). -/
def wMalformed : World :=
  { headReq := fun _ => .resp 200 0
    getReq := fun _ => .resp 200 0
    page := fun u =>
      if u = "http://a".data then
        .resp 200 0 "text/html".data ["p1".data, "http://[x".data]
      else .exc "nope".data }

/-- A world in which every HEAD request is answered with a plain
`405 Method Not Allowed` response and every GET with `200`. -/
def w405 : World :=
  { headReq := fun _ => .resp 405 0
    getReq := fun _ => .resp 200 0
    page := fun _ => .exc "nope".data }

/-! ## C1: severity is a pure function of status code and response time -/

/-- The severity rule exactly as the claim states it (with the
`[300, 399]` interval spelled out). -/
def claimSeverity (status : Nat) (rt : Rat) : Str :=
  if 400 ≤ status then "error".data
  else if (300 ≤ status ∧ status ≤ 399) ∨ 5 < rt then "warning".data
  else "success".data

/-- **C1**: whenever `_check_link` builds its `LinkResult` from an HTTP
response (whether obtained by HEAD or by the GET fallback), the recorded
severity is the pure function of `(status_code, response_time)` given by
the ordered rules of §4.3: `status >= 400` is `error`; otherwise
`status ∈ [300, 399]` or `response_time > 5.0` is `warning`; otherwise
`success`.  In particular 404 is `error` for every response time, 200 at
6.0 s is `warning`, and 200 at 0.2 s is `success`. -/
theorem c1_severity_pure :
    (∀ s t, respSeverity s t = claimSeverity s t) ∧
    (∀ cfg w src tgt r s, (check_link cfg w src tgt).1 = some r →
        r.status_code = some s →
        r.severity = respSeverity s r.response_time) ∧
    (∀ t, respSeverity 404 t = "error".data) ∧
    respSeverity 200 6 = "warning".data ∧
    respSeverity 200 (1 / 5 : Rat) = "success".data := by
  refine ⟨?_, ?_, ?_, ?_, ?_⟩
  · intro s t
    by_cases h4 : 400 ≤ s
    · simp [respSeverity, claimSeverity, h4]
    · have h9 : s ≤ 399 := by omega
      by_cases h3 : 300 ≤ s
      · simp [respSeverity, claimSeverity, h4, h3, h9]
      · simp [respSeverity, claimSeverity, h4, h3]
  · intro cfg w src tgt r s hr hs
    unfold check_link at hr
    cases hlt : get_link_typeE cfg tgt with
    | none => rw [hlt] at hr; simp at hr
    | some lt =>
      rw [hlt] at hr
      cases hh : w.headReq tgt with
      | resp s2 t2 =>
        rw [hh] at hr
        simp only [Option.some.injEq] at hr
        subst hr
        simp only [okLinkResult] at hs ⊢
        cases hs
        rfl
      | timeoutExc =>
        rw [hh] at hr
        simp only [Option.some.injEq] at hr
        subst hr
        simp [timeoutLinkResult] at hs
      | otherExc m =>
        rw [hh] at hr
        simp only [Option.some.injEq] at hr
        subst hr
        simp [excLinkResult] at hs
      | statusExc m =>
        rw [hh] at hr
        cases hg : w.getReq tgt with
        | resp s2 t2 =>
          rw [hg] at hr
          simp only [Option.some.injEq] at hr
          subst hr
          simp only [okLinkResult] at hs ⊢
          cases hs
          rfl
        | timeoutExc =>
          rw [hg] at hr
          simp only [Option.some.injEq] at hr
          subst hr
          simp [timeoutLinkResult] at hs
        | statusExc m2 =>
          rw [hg] at hr
          simp only [Option.some.injEq] at hr
          subst hr
          simp [excLinkResult] at hs
        | otherExc m2 =>
          rw [hg] at hr
          simp only [Option.some.injEq] at hr
          subst hr
          simp [excLinkResult] at hs
  · intro t
    norm_num [respSeverity]
  · norm_num [respSeverity]
  · norm_num [respSeverity]

/-- Witness for C1 at a concrete input: the check of `http://a/p` in the
diamond world receives a 200 response, and the recorded severity is the
pure severity function at that status and response time. -/
theorem c1_severity_pure_witness :
    (check_link cfgA wDiamond "http://a".data "http://a/p".data).1 =
      some (okLinkResult "http://a".data "http://a/p".data "page".data 200 0) ∧
    (okLinkResult "http://a".data "http://a/p".data "page".data 200 0).severity =
      respSeverity 200
        (okLinkResult "http://a".data "http://a/p".data "page".data 200 0).response_time :=
  ⟨by decide,
   c1_severity_pure.2.1 cfgA wDiamond "http://a".data "http://a/p".data
     (okLinkResult "http://a".data "http://a/p".data "page".data 200 0) 200
     (by decide) (by decide)⟩

/-! ## C6: the HEAD-to-GET fallback -/

/-- **C6 counterexample**: a server that answers HEAD with a plain
`405 Method Not Allowed` *response* — the very "non-2xx/3xx signaling
method-not-allowed" of the claim — does not trigger the GET fallback: the
checker issues only the HEAD request and builds the `LinkResult` from the
405 HEAD response (status 405, severity `error`), not from the GET outcome
(which would be status 200).  `httpx` raises `HTTPStatusError` only from
`raise_for_status()`, which `_check_link` never calls, so a
method-not-allowed response is returned, not raised. -/
theorem c6_counterexample :
    (check_link cfgA w405 "http://a".data "http://a/p".data).2 =
      [ReqEvent.headReq] ∧
    (check_link cfgA w405 "http://a".data "http://a/p".data).1 =
      some (okLinkResult "http://a".data "http://a/p".data "page".data 405 0) ∧
    (okLinkResult "http://a".data "http://a/p".data "page".data 405 0).severity =
      "error".data := by
  refine ⟨by decide, by decide, by decide⟩

/-- **C6 (amended)**: `_check_link` retries with GET exactly when the HEAD
call *raises* `httpx.HTTPStatusError`; whenever HEAD returns a response —
including `405 Method Not Allowed` — no GET is issued and the `LinkResult`
is built from the HEAD response; when HEAD does raise `HTTPStatusError`,
exactly one GET is issued and the `LinkResult` is built from the GET
outcome. -/
theorem c6_get_fallback (cfg : CrawlerConfig) (w : World) (src tgt lt : Str)
    (hlt : get_link_typeE cfg tgt = some lt) :
    ((ReqEvent.getReq ∈ (check_link cfg w src tgt).2) ↔
      (∃ m, w.headReq tgt = .statusExc m)) ∧
    (∀ s t, w.headReq tgt = .resp s t →
      check_link cfg w src tgt =
        (some (okLinkResult src tgt lt s t), [ReqEvent.headReq])) ∧
    (∀ m, w.headReq tgt = .statusExc m →
      (check_link cfg w src tgt).2 = [ReqEvent.headReq, ReqEvent.getReq] ∧
      (check_link cfg w src tgt).1 = some (match w.getReq tgt with
        | .resp s t => okLinkResult src tgt lt s t
        | .timeoutExc => timeoutLinkResult cfg src tgt lt
        | .statusExc m2 => excLinkResult src tgt lt m2
        | .otherExc m2 => excLinkResult src tgt lt m2)) := by
  refine ⟨?_, ?_, ?_⟩
  · constructor
    · intro hmem
      cases hh : w.headReq tgt with
      | resp s t => rw [check_link, hlt, hh] at hmem; simp at hmem
      | timeoutExc => rw [check_link, hlt, hh] at hmem; simp at hmem
      | otherExc m => rw [check_link, hlt, hh] at hmem; simp at hmem
      | statusExc m => exact ⟨m, rfl⟩
    · rintro ⟨m, hm⟩
      rw [check_link, hlt, hm]
      cases w.getReq tgt <;> simp
  · intro s t hh
    rw [check_link, hlt, hh]
  · intro m hm
    rw [check_link, hlt, hm]
    cases w.getReq tgt <;> simp

/-- Witness for the amended C6: in the 405 world, HEAD returns a response,
so the result is `(HEAD outcome, [headReq])`. -/
theorem c6_get_fallback_witness :
    check_link cfgA w405 "http://a".data "http://a/c".data =
      (some (okLinkResult "http://a".data "http://a/c".data "page".data 405 0),
       [ReqEvent.headReq]) :=
  (c6_get_fallback cfgA w405 "http://a".data "http://a/c".data "page".data
    (by decide)).2.1 405 0 (by decide)

/-! ## C5: link classification -/

/-- Modelled from the claim for C5: classification with extension matching
on the suffix of the lowercased *path component* (what "case-insensitive on
the path suffix" says), same decision order otherwise. -/
def classifyPathSuffix (url : Str) (originDomain : Str) : Option Str :=
  match urlparseE url [] with
  | .error _ => none
  | .ok P =>
    let l := P.path.map Char.toLower
    if imageExts.any (fun e => endsWith l e) then some "image".data
    else if endsWith l (".css".data) then some "css".data
    else if endsWith l (".js".data) then some "js".data
    else if P.netloc ≠ originDomain then some "external".data
    else some "page".data

/-- **C5 counterexample**: extension matching in `_get_link_type` is done
with `str.endswith` on the *entire lowercased URL string*, not on the path
suffix.  For `http://a/search?q=.png` the path suffix is `/search`, so the
claim's rules classify it `page` (same host, no matching extension), but
the code classifies it `image` because the full URL string ends in
`.png`. -/
theorem c5_counterexample :
    get_link_typeE cfgA ("http://a/search?q=.png".data) = some ("image".data) ∧
    classifyPathSuffix ("http://a/search?q=.png".data) ("a".data) =
      some ("page".data) := by
  refine ⟨by decide, by decide⟩

/-- **C5 (amended)**: for every URL on which `urlparse` succeeds (so
`_is_same_domain` does not raise), `_get_link_type` returns exactly one of
{image, css, js, external, page}, deciding in that order, with the
extension tests taking precedence over the origin check; extension
matching is case-insensitive because it tests the *lowercased full URL
string* (not just the path component) against each extension. -/
theorem c5_classify_exhaustive (cfg : CrawlerConfig) (url : Str) :
    (∀ sd, is_same_domainE cfg url = some sd →
      ∃ r, get_link_typeE cfg url = some r) ∧
    (∀ r, get_link_typeE cfg url = some r →
      (r = "image".data ∨ r = "css".data ∨ r = "js".data ∨
       r = "external".data ∨ r = "page".data) ∧
      (imageExts.any (fun e => endsWith (url.map Char.toLower) e) = true →
        r = "image".data) ∧
      (imageExts.any (fun e => endsWith (url.map Char.toLower) e) = false →
       endsWith (url.map Char.toLower) (".css".data) = true →
        r = "css".data) ∧
      (imageExts.any (fun e => endsWith (url.map Char.toLower) e) = false →
       endsWith (url.map Char.toLower) (".css".data) = false →
       endsWith (url.map Char.toLower) (".js".data) = true →
        r = "js".data) ∧
      (imageExts.any (fun e => endsWith (url.map Char.toLower) e) = false →
       endsWith (url.map Char.toLower) (".css".data) = false →
       endsWith (url.map Char.toLower) (".js".data) = false →
        (r = "external".data ↔ is_same_domainE cfg url = some false) ∧
        (r = "page".data ↔ is_same_domainE cfg url = some true))) := by
  constructor
  · intro sd hsd
    unfold get_link_typeE
    by_cases h1 : imageExts.any (fun e => endsWith (url.map Char.toLower) e)
    · exact ⟨"image".data, by simp [h1]⟩
    · by_cases h2 : endsWith (url.map Char.toLower) (".css".data)
      · exact ⟨"css".data, by simp [h1, h2]⟩
      · by_cases h3 : endsWith (url.map Char.toLower) (".js".data)
        · exact ⟨"js".data, by simp [h1, h2, h3]⟩
        · exact ⟨if sd then "page".data else "external".data,
            by simp [h1, h2, h3, hsd]⟩
  · intro r hr
    unfold get_link_typeE at hr
    by_cases h1 : imageExts.any (fun e => endsWith (url.map Char.toLower) e)
    · simp only [h1, if_true, Option.some.injEq] at hr
      subst hr
      refine ⟨by simp, fun _ => rfl, ?_, ?_, ?_⟩ <;> intro h <;> simp_all
    · by_cases h2 : endsWith (url.map Char.toLower) (".css".data)
      · simp only [h1, h2, if_false, if_true, Bool.false_eq_true,
          Option.some.injEq] at hr
        subst hr
        refine ⟨by simp, ?_, ?_, ?_, ?_⟩ <;> intro h <;> simp_all
      · by_cases h3 : endsWith (url.map Char.toLower) (".js".data)
        · simp only [h1, h2, h3, if_false, if_true, Bool.false_eq_true,
            Option.some.injEq] at hr
          subst hr
          refine ⟨by simp, ?_, ?_, ?_, ?_⟩ <;> intro h <;> simp_all
        · cases hsd : is_same_domainE cfg url with
          | none => simp [h1, h2, h3, hsd] at hr
          | some sd =>
            simp only [h1, h2, h3, hsd, if_false, Bool.false_eq_true,
              Option.some.injEq] at hr
            cases sd with
            | true =>
              simp at hr
              refine ⟨?_, ?_, ?_, ?_, ?_⟩
              · subst hr; simp
              · intro h; simp_all
              · intro h; simp_all
              · intro h; simp_all
              · intro _ _ _
                subst hr
                constructor
                · simp
                · simp [hsd]
            | false =>
              simp at hr
              refine ⟨?_, ?_, ?_, ?_, ?_⟩
              · subst hr; simp
              · intro h; simp_all
              · intro h; simp_all
              · intro h; simp_all
              · intro _ _ _
                subst hr
                constructor
                · simp [hsd]
                · simp

/-- Witness for the amended C5: `http://b/x.CSS` is on a foreign host,
parses fine, and is classified (in fact as `css`, case-insensitively). -/
theorem c5_classify_exhaustive_witness :
    ∃ r, get_link_typeE cfgA ("http://b/x.CSS".data) = some r :=
  (c5_classify_exhaustive cfgA ("http://b/x.CSS".data)).1 false (by decide)

/-! ## C9: mandatory inclusion in the stratified sample -/

theorem mem_setInsert_self (l : List Str) (x : Str) : x ∈ setInsert l x := by
  unfold setInsert
  by_cases h : x ∈ l <;> simp [h]

theorem mem_setInsert_of_mem {l : List Str} {a : Str} (x : Str) (h : a ∈ l) :
    a ∈ setInsert l x := by
  unfold setInsert
  by_cases hx : x ∈ l <;> simp [hx, h]

theorem mem_foldl_sampleSel (dmap : Str → Option Nat) :
    ∀ (pages : List Str) (sel : List Str) (a : Str), a ∈ sel →
      a ∈ pages.foldl (fun sel url =>
        if (dmap url).getD 999 = 1 then setInsert sel url else sel) sel := by
  intro pages
  induction pages with
  | nil => intro sel a ha; simpa using ha
  | cons p ps ih =>
    intro sel a ha
    simp only [List.foldl_cons]
    by_cases hp : (dmap p).getD 999 = 1
    · simp only [hp, if_true]
      exact ih _ a (mem_setInsert_of_mem p ha)
    · simp only [hp, if_false]
      exact ih _ a ha

theorem mem_foldl_sampleSel_of_depth1 (dmap : Str → Option Nat) :
    ∀ (pages : List Str) (sel : List Str) (u : Str), u ∈ pages →
      (dmap u).getD 999 = 1 →
      u ∈ pages.foldl (fun sel url =>
        if (dmap url).getD 999 = 1 then setInsert sel url else sel) sel := by
  intro pages
  induction pages with
  | nil => intro sel u hu; simp at hu
  | cons p ps ih =>
    intro sel u hu hd
    simp only [List.foldl_cons]
    rcases List.mem_cons.mp hu with rfl | hu2
    · simp only [hd, if_true]
      exact mem_foldl_sampleSel dmap ps _ u (mem_setInsert_self sel u)
    · by_cases hp : (dmap p).getD 999 = 1
      · simp only [hp, if_true]
        exact ih _ u hu2 hd
      · simp only [hp, if_false]
        exact ih _ u hu2 hd

theorem mem_setInsertAll {l : List Str} {a : Str} (xs : List Str) (h : a ∈ l) :
    a ∈ setInsertAll l xs := by
  induction xs generalizing l with
  | nil => simpa [setInsertAll] using h
  | cons x xs ih =>
    simp only [setInsertAll, List.foldl_cons]
    exact ih (mem_setInsert_of_mem x h)

/-- **C9**: for every page list, homepage, depth map, rate and random draw,
the output of `select_stratified_sample` contains the homepage whenever the
homepage occurs in the page list, and contains every page whose recorded
depth is exactly 1 (`depth_map.get(url, 999) == 1`). -/
theorem c9_sample_mandatory (all_pages : List Str) (homepage : Str)
    (dmap : Str → Option Nat) (rate : Rat)
    (sampler : List Str → Nat → List Str) :
    (homepage ∈ all_pages →
      homepage ∈ select_stratified_sample all_pages homepage dmap rate sampler) ∧
    (∀ u, u ∈ all_pages → (dmap u).getD 999 = 1 →
      u ∈ select_stratified_sample all_pages homepage dmap rate sampler) := by
  constructor
  · intro hh
    unfold select_stratified_sample
    simp only [hh, if_true]
    have h1 : homepage ∈ setInsert [] homepage := mem_setInsert_self [] homepage
    have h2 := mem_foldl_sampleSel dmap all_pages _ homepage h1
    split
    · split
      · exact mem_setInsertAll _ h2
      · exact mem_setInsertAll _ h2
    · exact h2
  · intro u hu hd
    unfold select_stratified_sample
    by_cases hh : homepage ∈ all_pages
    · simp only [hh, if_true]
      have h2 := mem_foldl_sampleSel_of_depth1 dmap all_pages
        (setInsert [] homepage) u hu hd
      split
      · split
        · exact mem_setInsertAll _ h2
        · exact mem_setInsertAll _ h2
      · exact h2
    · simp only [hh, if_false]
      have h2 := mem_foldl_sampleSel_of_depth1 dmap all_pages [] u hu hd
      split
      · split
        · exact mem_setInsertAll _ h2
        · exact mem_setInsertAll _ h2
      · exact h2

/-- Witness for C9 at concrete inputs: homepage and the depth-1 page are in
the selected sample (with a sampler that returns nothing, rate 0). -/
theorem c9_sample_mandatory_witness :
    "http://a".data ∈ select_stratified_sample
      ["http://a".data, "http://a/p".data, "http://a/z".data] ("http://a".data)
      (fun u => if u = "http://a/p".data then some 1 else none) 0
      (fun _ _ => []) ∧
    "http://a/p".data ∈ select_stratified_sample
      ["http://a".data, "http://a/p".data, "http://a/z".data] ("http://a".data)
      (fun u => if u = "http://a/p".data then some 1 else none) 0
      (fun _ _ => []) :=
  ⟨(c9_sample_mandatory _ _ _ _ _).1 (by decide),
   (c9_sample_mandatory _ _ _ _ _).2 ("http://a/p".data) (by decide) (by decide)⟩

/-! ## Crawl scheduler invariants (C2, C3, C4, C10) -/

/-- URLs of the page-fetch events. -/
def fetchUrls (tr : List CrawlEv) : List Str :=
  (fetchEvents tr).map Prod.fst

theorem deqUrls_append (a b : List CrawlEv) :
    deqUrls (a ++ b) = deqUrls a ++ deqUrls b := by
  simp [deqUrls, List.filterMap_append]

theorem deqEvents_append (a b : List CrawlEv) :
    deqEvents (a ++ b) = deqEvents a ++ deqEvents b := by
  simp [deqEvents, List.filterMap_append]

theorem fetchEvents_append (a b : List CrawlEv) :
    fetchEvents (a ++ b) = fetchEvents a ++ fetchEvents b := by
  simp [fetchEvents, List.filterMap_append]

theorem enqEvents_append (a b : List CrawlEv) :
    enqEvents (a ++ b) = enqEvents a ++ enqEvents b := by
  simp [enqEvents, List.filterMap_append]

theorem fetchUrls_append (a b : List CrawlEv) :
    fetchUrls (a ++ b) = fetchUrls a ++ fetchUrls b := by
  simp [fetchUrls, fetchEvents_append]

theorem deqUrls_eq_map (tr : List CrawlEv) :
    deqUrls tr = (deqEvents tr).map Prod.fst := by
  induction tr with
  | nil => rfl
  | cons e rest ih =>
    cases e <;> simp [deqUrls, deqEvents, List.filterMap_cons] <;>
      simpa [deqUrls, deqEvents] using ih

/-- Events emitted while processing a batch member at depth `d`: no
dequeue, all at layer `d`, and enqueues carry depth `d + 1` and are guarded
by `d < max_depth`. -/
def procEv (cfg : CrawlerConfig) (d : Nat) : CrawlEv → Prop
  | .deq _ _ => False
  | .fetchPage _ d2 => d2 = d
  | .checkLink _ _ d2 => d2 = d
  | .enq _ d2 => d2 = d + 1 ∧ d < cfg.max_depth

theorem procEv_evLayer {cfg : CrawlerConfig} {d : Nat} {e : CrawlEv}
    (h : procEv cfg d e) : evLayer e = d := by
  cases e with
  | deq u d2 => exact absurd h (by simp [procEv])
  | fetchPage u d2 => simpa [procEv, evLayer] using h
  | checkLink s t d2 => simpa [procEv, evLayer] using h
  | enq u d2 =>
    obtain ⟨h1, _⟩ := h
    simp [evLayer, h1]

theorem deqEvents_eq_nil_of_procEv {cfg : CrawlerConfig} {d : Nat}
    {tr : List CrawlEv} (h : ∀ e ∈ tr, procEv cfg d e) :
    deqEvents tr = [] := by
  induction tr with
  | nil => rfl
  | cons e rest ih =>
    have he := h e (by simp)
    have hr := ih (fun x hx => h x (List.mem_cons_of_mem _ hx))
    cases e <;> simp [procEv] at he ⊢ <;> simp [deqEvents, List.filterMap_cons] at hr ⊢ <;>
      simpa [deqEvents] using hr

theorem drainLoop_spec (d : Nat) :
    ∀ (queue : List (Str × Nat)) (st : CrawlState)
      (batch qrem : List (Str × Nat)) (st2 : CrawlState),
    (∀ x ∈ queue, x.2 = d) →
    drainLoop d queue st = (batch, qrem, st2) →
    qrem = [] ∧
    (batch.map Prod.fst).Nodup ∧
    (∀ x ∈ batch, x.2 = d ∧ x.1 ∉ st.visited) ∧
    st2.visited = st.visited ++ batch.map Prod.fst ∧
    st2.trace = st.trace ++ batch.map (fun x => CrawlEv.deq x.1 x.2) ∧
    st2.results = st.results ∧
    st2.pages_crawled = st.pages_crawled ∧
    (∀ u, u ∉ batch.map Prod.fst → st2.depth_map u = st.depth_map u) ∧
    (∀ x ∈ batch, st2.depth_map x.1 = some x.2) := by
  intro queue
  induction queue with
  | nil =>
    intro st batch qrem st2 _ heq
    simp only [drainLoop, Prod.mk.injEq] at heq
    obtain ⟨rfl, rfl, rfl⟩ := heq
    simp
  | cons e rest ih =>
    obtain ⟨url, depth⟩ := e
    intro st batch qrem st2 hq heq
    have hd : depth = d := hq (url, depth) (by simp)
    subst hd
    rw [drainLoop] at heq
    simp only [if_pos rfl] at heq
    by_cases hv : url ∈ st.visited
    · rw [if_pos hv] at heq
      have := ih st batch qrem st2
        (fun x hx => hq x (List.mem_cons_of_mem _ hx)) heq
      obtain ⟨h1, h2, h3, h4, h5, h6, h7, h8, h9⟩ := this
      exact ⟨h1, h2, h3, h4, h5, h6, h7, h8, h9⟩
    · rw [if_neg hv] at heq
      rcases hr : drainLoop depth rest
          { st with
            visited := st.visited ++ [url]
            depth_map := fun u => if u = url then some depth else st.depth_map u
            trace := st.trace ++ [CrawlEv.deq url depth] } with ⟨b2, q2, s2⟩
      rw [hr] at heq
      obtain ⟨rfl, rfl, rfl⟩ :
          batch = (url, depth) :: b2 ∧ qrem = q2 ∧ st2 = s2 := by
        refine ⟨(congrArg Prod.fst heq).symm, ?_, ?_⟩
        · exact (congrArg (fun p => p.2.1) heq).symm
        · exact (congrArg (fun p => p.2.2) heq).symm
      obtain ⟨h1, h2, h3, h4, h5, h6, h7, h8, h9⟩ := ih _ b2 qrem st2
        (fun x hx => hq x (List.mem_cons_of_mem _ hx)) hr
      have hfresh : ∀ x ∈ b2, x.1 ∉ st.visited ++ [url] := fun x hx => (h3 x hx).2
      have hne : url ∉ b2.map Prod.fst := by
        intro hmem
        obtain ⟨x, hx, hxe⟩ := List.mem_map.mp hmem
        exact hfresh x hx (by simp [hxe])
      refine ⟨h1, ?_, ?_, ?_, ?_, h6, h7, ?_, ?_⟩
      · simpa using List.Nodup.cons hne h2
      · intro x hx
        rcases List.mem_cons.mp hx with rfl | hx2
        · exact ⟨rfl, hv⟩
        · refine ⟨(h3 x hx2).1, fun hmem => ?_⟩
          exact hfresh x hx2 (List.mem_append_left _ hmem)
      · simpa [List.append_assoc] using h4
      · simpa [List.append_assoc] using h5
      · intro u hu
        have hu2 : u ∉ b2.map Prod.fst := fun hm => hu (by simp [hm])
        have hne2 : u ≠ url := fun hh => hu (by simp [hh])
        rw [h8 u hu2]
        simp [hne2]
      · intro x hx
        rcases List.mem_cons.mp hx with rfl | hx2
        · rw [h8 url hne]
          simp
        · exact h9 x hx2

theorem checkStep_spec (cfg : CrawlerConfig) (w : World) (url : Str) (d : Nat)
    (p : CrawlState × List (Str × Nat)) (link : Str) :
    ∃ Δ Δq,
      (checkStep cfg w url d p link).1.visited = p.1.visited ∧
      (checkStep cfg w url d p link).1.depth_map = p.1.depth_map ∧
      (checkStep cfg w url d p link).1.pages_crawled = p.1.pages_crawled ∧
      (checkStep cfg w url d p link).1.trace = p.1.trace ++ Δ ∧
      (checkStep cfg w url d p link).2 = p.2 ++ Δq ∧
      (∀ e ∈ Δ, procEv cfg d e) ∧
      fetchEvents Δ = [] ∧
      (∀ x ∈ Δq, x.2 = d + 1 ∧ d < cfg.max_depth) := by
  rcases hc : check_link cfg w url link with ⟨or, tr⟩
  cases or with
  | none =>
    refine ⟨[], [], ?_, ?_, ?_, ?_, ?_, ?_, ?_, ?_⟩ <;>
      simp [checkStep, hc, fetchEvents]
  | some r =>
    by_cases hg : d < cfg.max_depth ∧ r.link_type = "page".data ∧
        r.severity ≠ "error".data ∧ r.target_url ∉ p.1.visited
    · refine ⟨[CrawlEv.checkLink url link d, CrawlEv.enq r.target_url (d + 1)],
        [(r.target_url, d + 1)], ?_, ?_, ?_, ?_, ?_, ?_, ?_, ?_⟩ <;>
        simp [checkStep, hc, hg, procEv, fetchEvents, hg.1]
    · refine ⟨[CrawlEv.checkLink url link d], [], ?_, ?_, ?_, ?_, ?_, ?_, ?_, ?_⟩ <;>
        simp [checkStep, hc, hg, procEv, fetchEvents]

theorem checkFold_spec (cfg : CrawlerConfig) (w : World) (url : Str) (d : Nat) :
    ∀ (links : List Str) (p : CrawlState × List (Str × Nat)),
    ∃ Δ Δq,
      (links.foldl (checkStep cfg w url d) p).1.visited = p.1.visited ∧
      (links.foldl (checkStep cfg w url d) p).1.depth_map = p.1.depth_map ∧
      (links.foldl (checkStep cfg w url d) p).1.pages_crawled = p.1.pages_crawled ∧
      (links.foldl (checkStep cfg w url d) p).1.trace = p.1.trace ++ Δ ∧
      (links.foldl (checkStep cfg w url d) p).2 = p.2 ++ Δq ∧
      (∀ e ∈ Δ, procEv cfg d e) ∧
      fetchEvents Δ = [] ∧
      (∀ x ∈ Δq, x.2 = d + 1 ∧ d < cfg.max_depth) := by
  intro links
  induction links with
  | nil =>
    intro p
    exact ⟨[], [], rfl, rfl, rfl, by simp, by simp, by simp, by simp [fetchEvents], by simp⟩
  | cons link rest ih =>
    intro p
    obtain ⟨Δ1, Δq1, a1, a2, a3, a4, a5, a6, a7, a8⟩ :=
      checkStep_spec cfg w url d p link
    obtain ⟨Δ2, Δq2, b1, b2, b3, b4, b5, b6, b7, b8⟩ :=
      ih (checkStep cfg w url d p link)
    refine ⟨Δ1 ++ Δ2, Δq1 ++ Δq2, ?_, ?_, ?_, ?_, ?_, ?_, ?_, ?_⟩
    · rw [List.foldl_cons, b1, a1]
    · rw [List.foldl_cons, b2, a2]
    · rw [List.foldl_cons, b3, a3]
    · rw [List.foldl_cons, b4, a4, List.append_assoc]
    · rw [List.foldl_cons, b5, a5, List.append_assoc]
    · intro e he
      rcases List.mem_append.mp he with h | h
      · exact a6 e h
      · exact b6 e h
    · rw [fetchEvents_append, a7, b7]
      rfl
    · intro x hx
      rcases List.mem_append.mp hx with h | h
      · exact a8 x h
      · exact b8 x h

theorem crawl_page_spec (cfg : CrawlerConfig) (w : World) (url : Str) (d : Nat)
    (st : CrawlState) (queue : List (Str × Nat)) :
    ∃ Δ Δq,
      (crawl_page cfg w url d st queue).1.visited = st.visited ∧
      (crawl_page cfg w url d st queue).1.depth_map = st.depth_map ∧
      (crawl_page cfg w url d st queue).1.trace = st.trace ++ Δ ∧
      (crawl_page cfg w url d st queue).2 = queue ++ Δq ∧
      (∀ e ∈ Δ, procEv cfg d e) ∧
      (fetchEvents Δ = [] ∨ fetchEvents Δ = [(url, d)]) ∧
      (∀ x ∈ Δq, x.2 = d + 1 ∧ d < cfg.max_depth) := by
  rcases hsd : is_same_domainE cfg url with _ | sd
  · exact ⟨[], [], by simp [crawl_page, hsd], by simp [crawl_page, hsd],
      by simp [crawl_page, hsd], by simp [crawl_page, hsd], by simp,
      Or.inl (by simp [fetchEvents]), by simp⟩
  · cases sd with
    | false =>
      rcases hc : check_link cfg w url url with ⟨or, tr⟩
      cases or with
      | none =>
        exact ⟨[], [], by simp [crawl_page, hsd, hc], by simp [crawl_page, hsd, hc],
          by simp [crawl_page, hsd, hc], by simp [crawl_page, hsd, hc], by simp,
          Or.inl (by simp [fetchEvents]), by simp⟩
      | some r =>
        refine ⟨[CrawlEv.checkLink url url d], [], ?_, ?_, ?_, ?_, ?_, ?_, ?_⟩ <;>
          simp [crawl_page, hsd, hc, procEv, fetchEvents]
    | true =>
      rcases hp : w.page url with ⟨status, elapsed, ctype, raws⟩ | m
      · by_cases h4 : 400 ≤ status
        · refine ⟨[CrawlEv.fetchPage url d], [], ?_, ?_, ?_, ?_, ?_, ?_, ?_⟩ <;>
            simp [crawl_page, hsd, hp, h4, procEv, fetchEvents]
        · by_cases hh : hasSub "text/html".data ctype
          · rcases hx : extract_linksE raws url with e | links
            · refine ⟨[CrawlEv.fetchPage url d], [], ?_, ?_, ?_, ?_, ?_, ?_, ?_⟩ <;>
                simp [crawl_page, hsd, hp, h4, hh, hx, procEv, fetchEvents]
            · obtain ⟨Δ2, Δq2, b1, b2, b3, b4, b5, b6, b7, b8⟩ :=
                checkFold_spec cfg w url d links
                  ({ st with
                      trace := st.trace ++ [CrawlEv.fetchPage url d]
                      pages_crawled := st.pages_crawled + 1 }, queue)
              refine ⟨CrawlEv.fetchPage url d :: Δ2, Δq2, ?_, ?_, ?_, ?_, ?_, ?_, ?_⟩
              · rw [show (crawl_page cfg w url d st queue) =
                  (links.foldl (checkStep cfg w url d)
                    ({ st with
                        trace := st.trace ++ [CrawlEv.fetchPage url d]
                        pages_crawled := st.pages_crawled + 1 }, queue)) from by
                  simp [crawl_page, hsd, hp, h4, hh, hx]]
                exact b1
              · rw [show (crawl_page cfg w url d st queue) =
                  (links.foldl (checkStep cfg w url d)
                    ({ st with
                        trace := st.trace ++ [CrawlEv.fetchPage url d]
                        pages_crawled := st.pages_crawled + 1 }, queue)) from by
                  simp [crawl_page, hsd, hp, h4, hh, hx]]
                exact b2
              · rw [show (crawl_page cfg w url d st queue) =
                  (links.foldl (checkStep cfg w url d)
                    ({ st with
                        trace := st.trace ++ [CrawlEv.fetchPage url d]
                        pages_crawled := st.pages_crawled + 1 }, queue)) from by
                  simp [crawl_page, hsd, hp, h4, hh, hx]]
                rw [b4]
                simp
              · rw [show (crawl_page cfg w url d st queue) =
                  (links.foldl (checkStep cfg w url d)
                    ({ st with
                        trace := st.trace ++ [CrawlEv.fetchPage url d]
                        pages_crawled := st.pages_crawled + 1 }, queue)) from by
                  simp [crawl_page, hsd, hp, h4, hh, hx]]
                exact b5
              · intro e he
                rcases List.mem_cons.mp he with rfl | h
                · simp [procEv]
                · exact b6 e h
              · right
                rw [show (CrawlEv.fetchPage url d :: Δ2) =
                    [CrawlEv.fetchPage url d] ++ Δ2 from rfl,
                  fetchEvents_append, b7]
                simp [fetchEvents]
              · exact b8
          · refine ⟨[CrawlEv.fetchPage url d], [], ?_, ?_, ?_, ?_, ?_, ?_, ?_⟩ <;>
              simp [crawl_page, hsd, hp, h4, hh, procEv, fetchEvents]
      · refine ⟨[CrawlEv.fetchPage url d], [], ?_, ?_, ?_, ?_, ?_, ?_, ?_⟩ <;>
          simp [crawl_page, hsd, hp, procEv, fetchEvents]

theorem batchFold_spec (cfg : CrawlerConfig) (w : World) (d : Nat) :
    ∀ (batch : List (Str × Nat)) (st : CrawlState) (queue : List (Str × Nat)),
    (∀ x ∈ batch, x.2 = d) →
    ∃ Δ Δq,
      (batch.foldl (batchStep cfg w) (st, queue)).1.visited = st.visited ∧
      (batch.foldl (batchStep cfg w) (st, queue)).1.depth_map = st.depth_map ∧
      (batch.foldl (batchStep cfg w) (st, queue)).1.trace = st.trace ++ Δ ∧
      (batch.foldl (batchStep cfg w) (st, queue)).2 = queue ++ Δq ∧
      (∀ e ∈ Δ, procEv cfg d e) ∧
      List.Sublist (fetchUrls Δ) (batch.map Prod.fst) ∧
      (∀ x ∈ fetchEvents Δ, x ∈ batch) ∧
      (∀ x ∈ Δq, x.2 = d + 1 ∧ d < cfg.max_depth) := by
  intro batch
  induction batch with
  | nil =>
    intro st queue _
    exact ⟨[], [], rfl, rfl, by simp, by simp, by simp,
      by simp [fetchUrls, fetchEvents], by simp [fetchEvents], by simp⟩
  | cons e rest ih =>
    intro st queue hall
    have hed : e.2 = d := hall e (by simp)
    obtain ⟨Δ1, Δq1, a1, a2, a3, a4, a5, a6, a7⟩ :=
      crawl_page_spec cfg w e.1 e.2 st queue
    rcases hcp : crawl_page cfg w e.1 e.2 st queue with ⟨st1, q1⟩
    rw [hcp] at a1 a2 a3 a4
    obtain ⟨Δ2, Δq2, b1, b2, b3, b4, b5, b6, b7, b8⟩ :=
      ih st1 q1 (fun x hx => hall x (List.mem_cons_of_mem _ hx))
    have hfold : (e :: rest).foldl (batchStep cfg w) (st, queue) =
        rest.foldl (batchStep cfg w) (st1, q1) := by
      rw [List.foldl_cons]
      unfold batchStep
      rw [hcp]
    refine ⟨Δ1 ++ Δ2, Δq1 ++ Δq2, ?_, ?_, ?_, ?_, ?_, ?_, ?_, ?_⟩
    · rw [hfold, b1, a1]
    · rw [hfold, b2, a2]
    · rw [hfold, b3, a3, List.append_assoc]
    · rw [hfold, b4, show q1 = queue ++ Δq1 from a4, List.append_assoc]
    · intro ev hev
      rcases List.mem_append.mp hev with h | h
      · exact hed ▸ a5 ev h
      · exact b5 ev h
    · rw [fetchUrls_append]
      rcases a6 with hnil | hone
      · rw [fetchUrls, hnil]
        simp only [List.map_nil, List.nil_append, List.map_cons]
        exact b6.cons _
      · rw [fetchUrls, hone]
        simp only [List.map_cons, List.map_nil, List.singleton_append,
          List.map_cons]
        exact b6.cons₂ _
    · intro x hx
      rw [fetchEvents_append] at hx
      rcases List.mem_append.mp hx with h | h
      · rcases a6 with hnil | hone
        · rw [hnil] at h
          simp at h
        · rw [hone] at h
          simp only [List.mem_singleton] at h
          subst h
          exact List.mem_cons_self _ _
      · exact List.mem_cons_of_mem _ (b7 x h)
    · intro x hx
      rcases List.mem_append.mp hx with h | h
      · exact hed ▸ a7 x h
      · exact b8 x h

theorem pairwise_le_of_const {X : List Nat} {d : Nat} (h : ∀ x ∈ X, x = d) :
    X.Pairwise (· ≤ ·) := by
  induction X with
  | nil => exact List.Pairwise.nil
  | cons a rest ih =>
    refine List.Pairwise.cons ?_ (ih fun x hx => h x (List.mem_cons_of_mem _ hx))
    intro b hb
    rw [h a (by simp), h b (List.mem_cons_of_mem _ hb)]

theorem mem_deqEvents {x : Str × Nat} {tr : List CrawlEv} :
    x ∈ deqEvents tr ↔ CrawlEv.deq x.1 x.2 ∈ tr := by
  constructor
  · intro h
    obtain ⟨e, he, hfe⟩ := List.mem_filterMap.mp h
    cases e <;> simp_all
    subst hfe
    simpa using he
  · intro h
    exact List.mem_filterMap.mpr ⟨CrawlEv.deq x.1 x.2, h, rfl⟩

theorem mem_fetchEvents {x : Str × Nat} {tr : List CrawlEv} :
    x ∈ fetchEvents tr ↔ CrawlEv.fetchPage x.1 x.2 ∈ tr := by
  constructor
  · intro h
    obtain ⟨e, he, hfe⟩ := List.mem_filterMap.mp h
    cases e <;> simp_all
    subst hfe
    simpa using he
  · intro h
    exact List.mem_filterMap.mpr ⟨CrawlEv.fetchPage x.1 x.2, h, rfl⟩

theorem mem_enqEvents {x : Str × Nat} {tr : List CrawlEv} :
    x ∈ enqEvents tr ↔ CrawlEv.enq x.1 x.2 ∈ tr := by
  constructor
  · intro h
    obtain ⟨e, he, hfe⟩ := List.mem_filterMap.mp h
    cases e <;> simp_all
    subst hfe
    simpa using he
  · intro h
    exact List.mem_filterMap.mpr ⟨CrawlEv.enq x.1 x.2, h, rfl⟩

theorem deqEvents_map_deq (l : List (Str × Nat)) :
    deqEvents (l.map fun x => CrawlEv.deq x.1 x.2) = l := by
  induction l with
  | nil => rfl
  | cons a rest ih => simp_all [deqEvents, List.filterMap_cons]

theorem deqUrls_map_deq (l : List (Str × Nat)) :
    deqUrls (l.map fun x => CrawlEv.deq x.1 x.2) = l.map Prod.fst := by
  rw [deqUrls_eq_map, deqEvents_map_deq]

theorem fetchEvents_map_deq (l : List (Str × Nat)) :
    fetchEvents (l.map fun x => CrawlEv.deq x.1 x.2) = [] := by
  induction l with
  | nil => rfl
  | cons a rest ih => simp_all [fetchEvents, List.filterMap_cons]

theorem enqEvents_map_deq (l : List (Str × Nat)) :
    enqEvents (l.map fun x => CrawlEv.deq x.1 x.2) = [] := by
  induction l with
  | nil => rfl
  | cons a rest ih => simp_all [enqEvents, List.filterMap_cons]

theorem deqUrls_eq_nil_of_procEv {cfg : CrawlerConfig} {d : Nat}
    {tr : List CrawlEv} (h : ∀ e ∈ tr, procEv cfg d e) : deqUrls tr = [] := by
  rw [deqUrls_eq_map, deqEvents_eq_nil_of_procEv h]
  rfl

theorem enqEvents_of_procEv {cfg : CrawlerConfig} {d : Nat}
    {tr : List CrawlEv} (h : ∀ e ∈ tr, procEv cfg d e) :
    ∀ x ∈ enqEvents tr, x.2 = d + 1 ∧ d < cfg.max_depth := by
  intro x hx
  have he := h _ (mem_enqEvents.mp hx)
  simpa [procEv] using he

/-- The combined inductive invariant of the `while queue` loop: layer
depths are non-decreasing along the trace, `visited` is exactly the
dequeued URLs and has no duplicates, page fetches are unique and happen
only for dequeued URLs at their recorded depth, every frontier append
carries depth `d + 1` for a layer `d < max_depth`, and `depth_map` differs
from the prior map only on dequeued URLs, where it records the dequeue
depth. -/
theorem crawlLoop_spec (cfg : CrawlerConfig) (w : World)
    (dm0 : Str → Option Nat) :
    ∀ (fuel : Nat) (queue : List (Str × Nat)) (st : CrawlState) (d0 : Nat),
    (∀ x ∈ queue, x.2 = d0) →
    (∀ x ∈ queue, x.2 ≤ cfg.max_depth) →
    (∀ e ∈ st.trace, evLayer e < d0) →
    List.Pairwise (· ≤ ·) (st.trace.map evLayer) →
    st.visited = deqUrls st.trace →
    st.visited.Nodup →
    (∀ u ∈ fetchUrls st.trace, u ∈ st.visited) →
    (fetchUrls st.trace).Nodup →
    (∀ x ∈ fetchEvents st.trace, x ∈ deqEvents st.trace ∧ x.2 ≤ cfg.max_depth) →
    (∀ x ∈ enqEvents st.trace, 0 < x.2 ∧ x.2 ≤ cfg.max_depth) →
    (∀ u, u ∉ deqUrls st.trace → st.depth_map u = dm0 u) →
    (∀ x ∈ deqEvents st.trace, st.depth_map x.1 = some x.2 ∧ x.2 ≤ cfg.max_depth) →
    List.Pairwise (· ≤ ·) ((crawlLoop cfg w fuel queue st).trace.map evLayer) ∧
    (crawlLoop cfg w fuel queue st).visited =
      deqUrls (crawlLoop cfg w fuel queue st).trace ∧
    (crawlLoop cfg w fuel queue st).visited.Nodup ∧
    (∀ u ∈ fetchUrls (crawlLoop cfg w fuel queue st).trace,
      u ∈ (crawlLoop cfg w fuel queue st).visited) ∧
    (fetchUrls (crawlLoop cfg w fuel queue st).trace).Nodup ∧
    (∀ x ∈ fetchEvents (crawlLoop cfg w fuel queue st).trace,
      x ∈ deqEvents (crawlLoop cfg w fuel queue st).trace ∧
      x.2 ≤ cfg.max_depth) ∧
    (∀ x ∈ enqEvents (crawlLoop cfg w fuel queue st).trace,
      0 < x.2 ∧ x.2 ≤ cfg.max_depth) ∧
    (∀ u, u ∉ deqUrls (crawlLoop cfg w fuel queue st).trace →
      (crawlLoop cfg w fuel queue st).depth_map u = dm0 u) ∧
    (∀ x ∈ deqEvents (crawlLoop cfg w fuel queue st).trace,
      (crawlLoop cfg w fuel queue st).depth_map x.1 = some x.2 ∧
      x.2 ≤ cfg.max_depth) := by
  intro fuel
  induction fuel with
  | zero =>
    intro queue st d0 hq1 hq2 h3 h4 h5 h6 h7 h8 h9 h10 h11 h12
    cases queue with
    | nil =>
      simp only [crawlLoop]
      exact ⟨h4, h5, h6, h7, h8, h9, h10, h11, h12⟩
    | cons e rest =>
      simp only [crawlLoop]
      exact ⟨h4, h5, h6, h7, h8, h9, h10, h11, h12⟩
  | succ fuel ih =>
    intro queue st d0 hq1 hq2 h3 h4 h5 h6 h7 h8 h9 h10 h11 h12
    cases queue with
    | nil =>
      simp only [crawlLoop]
      exact ⟨h4, h5, h6, h7, h8, h9, h10, h11, h12⟩
    | cons e qrest =>
      obtain ⟨u0, dq⟩ := e
      have hdq : dq = d0 := hq1 (u0, dq) (by simp)
      subst hdq
      have hdmax : dq ≤ cfg.max_depth := hq2 (u0, dq) (by simp)
      rcases hdr : drainLoop dq ((u0, dq) :: qrest) st with ⟨batch, qrem, st1⟩
      obtain ⟨hqrem, hnodup, hfresh, hvis1, htr1, hres1, hpg1, hdm1, hdm1b⟩ :=
        drainLoop_spec dq ((u0, dq) :: qrest) st batch qrem st1 hq1 hdr
      subst hqrem
      obtain ⟨Δ, Δq, hbv, hbdm, hbtr, hbq, hproc, hsub, hfb, hΔq⟩ :=
        batchFold_spec cfg w dq batch st1 [] (fun x hx => (hfresh x hx).1)
      have hloop : crawlLoop cfg w (fuel + 1) ((u0, dq) :: qrest) st =
          crawlLoop cfg w fuel
            (batch.foldl (batchStep cfg w) (st1, [])).2
            (batch.foldl (batchStep cfg w) (st1, [])).1 := by
        simp only [crawlLoop, hdr]
      rw [hloop]
      have htrF : (batch.foldl (batchStep cfg w) (st1, [])).1.trace =
          st.trace ++ (batch.map (fun x => CrawlEv.deq x.1 x.2) ++ Δ) := by
        rw [hbtr, htr1, List.append_assoc]
      have hvisF : (batch.foldl (batchStep cfg w) (st1, [])).1.visited =
          st.visited ++ batch.map Prod.fst := by
        rw [hbv, hvis1]
      have hqF : (batch.foldl (batchStep cfg w) (st1, [])).2 = Δq := by
        rw [hbq]
        simp
      have hnewlayer : ∀ ev ∈ batch.map (fun x => CrawlEv.deq x.1 x.2) ++ Δ,
          evLayer ev = dq := by
        intro ev hev
        rcases List.mem_append.mp hev with hm | hm
        · obtain ⟨x, hx, rfl⟩ := List.mem_map.mp hm
          simp [evLayer, (hfresh x hx).1]
        · exact procEv_evLayer (hproc ev hm)
      have hdisj : List.Disjoint st.visited (batch.map Prod.fst) := by
        intro a ha hb
        obtain ⟨x, hx, rfl⟩ := List.mem_map.mp hb
        exact (hfresh x hx).2 ha
      have hdeqF : deqEvents (batch.foldl (batchStep cfg w) (st1, [])).1.trace =
          deqEvents st.trace ++ batch := by
        rw [htrF, deqEvents_append, deqEvents_append, deqEvents_map_deq,
          deqEvents_eq_nil_of_procEv hproc, List.append_nil]
      have hdequF : deqUrls (batch.foldl (batchStep cfg w) (st1, [])).1.trace =
          deqUrls st.trace ++ batch.map Prod.fst := by
        rw [deqUrls_eq_map, hdeqF, List.map_append, ← deqUrls_eq_map]
      have hfetchF : fetchUrls (batch.foldl (batchStep cfg w) (st1, [])).1.trace =
          fetchUrls st.trace ++ fetchUrls Δ := by
        rw [htrF, fetchUrls_append, fetchUrls_append]
        rw [show fetchUrls (batch.map fun x => CrawlEv.deq x.1 x.2) = [] from by
          rw [fetchUrls, fetchEvents_map_deq]; rfl]
        simp
      have hfeF : fetchEvents (batch.foldl (batchStep cfg w) (st1, [])).1.trace =
          fetchEvents st.trace ++ fetchEvents Δ := by
        rw [htrF, fetchEvents_append, fetchEvents_append, fetchEvents_map_deq]
        simp
      have henqF : enqEvents (batch.foldl (batchStep cfg w) (st1, [])).1.trace =
          enqEvents st.trace ++ enqEvents Δ := by
        rw [htrF, enqEvents_append, enqEvents_append, enqEvents_map_deq]
        simp
      have hfΔsub : ∀ a ∈ fetchUrls Δ, a ∈ batch.map Prod.fst :=
        fun a ha => hsub.subset ha
      refine ih (batch.foldl (batchStep cfg w) (st1, [])).2
        (batch.foldl (batchStep cfg w) (st1, [])).1 (dq + 1)
        ?_ ?_ ?_ ?_ ?_ ?_ ?_ ?_ ?_ ?_ ?_ ?_
      · intro x hx
        rw [hqF] at hx
        exact (hΔq x hx).1
      · intro x hx
        rw [hqF] at hx
        obtain ⟨he, hlt⟩ := hΔq x hx
        omega
      · intro ev hev
        rw [htrF] at hev
        rcases List.mem_append.mp hev with hm | hm
        · exact Nat.lt_succ_of_lt (h3 ev hm)
        · rw [hnewlayer ev hm]
          exact Nat.lt_succ_self dq
      · rw [htrF, List.map_append]
        rw [List.pairwise_append]
        refine ⟨h4, ?_, ?_⟩
        · refine pairwise_le_of_const (d := dq) ?_
          intro x hx
          obtain ⟨ev, hev, rfl⟩ := List.mem_map.mp hx
          exact hnewlayer ev hev
        · intro a ha b hb
          obtain ⟨ev1, hev1, rfl⟩ := List.mem_map.mp ha
          obtain ⟨ev2, hev2, rfl⟩ := List.mem_map.mp hb
          rw [hnewlayer ev2 hev2]
          exact Nat.le_of_lt (h3 ev1 hev1)
      · rw [hvisF, hdequF, h5]
      · rw [hvisF]
        exact h6.append (by simpa using hnodup) hdisj
      · intro u hu
        rw [hfetchF] at hu
        rw [hvisF]
        rcases List.mem_append.mp hu with hm | hm
        · exact List.mem_append_left _ (h7 u hm)
        · exact List.mem_append_right _ (hfΔsub u hm)
      · rw [hfetchF]
        refine h8.append (hsub.nodup (by simpa using hnodup)) ?_
        intro a ha hb
        exact hdisj (h7 a ha) (hfΔsub a hb)
      · intro x hx
        rw [hfeF] at hx
        rw [hdeqF]
        rcases List.mem_append.mp hx with hm | hm
        · obtain ⟨hin, hle⟩ := h9 x hm
          exact ⟨List.mem_append_left _ hin, hle⟩
        · have hxb : x ∈ batch := hfb x hm
          refine ⟨List.mem_append_right _ hxb, ?_⟩
          rw [(hfresh x hxb).1]
          exact hdmax
      · intro x hx
        rw [henqF] at hx
        rcases List.mem_append.mp hx with hm | hm
        · exact h10 x hm
        · obtain ⟨he, hlt⟩ := enqEvents_of_procEv hproc x hm
          constructor
          · omega
          · omega
      · intro u hu
        rw [hdequF] at hu
        rw [hbdm]
        have hu1 : u ∉ deqUrls st.trace := fun hm => hu (List.mem_append_left _ hm)
        have hu2 : u ∉ batch.map Prod.fst := fun hm => hu (List.mem_append_right _ hm)
        rw [hdm1 u hu2]
        exact h11 u hu1
      · intro x hx
        rw [hdeqF] at hx
        rw [hbdm]
        rcases List.mem_append.mp hx with hm | hm
        · obtain ⟨hdm, hle⟩ := h12 x hm
          have hxv : x.1 ∈ st.visited := by
            rw [h5, deqUrls_eq_map]
            exact List.mem_map.mpr ⟨x, hm, rfl⟩
          have hxb : x.1 ∉ batch.map Prod.fst := fun hb => hdisj hxv hb
          rw [hdm1 x.1 hxb]
          exact ⟨hdm, hle⟩
        · refine ⟨hdm1b x hm, ?_⟩
          rw [(hfresh x hm).1]
          exact hdmax

/-- `crawlLoop_spec` instantiated at the initial state `crawl` builds:
empty visited/results/counter/trace, frontier `[(start_url, 0)]`, and the
`depth_map` inherited from the prior state. -/
theorem crawl_spec (cfg : CrawlerConfig) (w : World) (st0 : CrawlState) :
    List.Pairwise (· ≤ ·) ((crawl cfg w st0).trace.map evLayer) ∧
    (crawl cfg w st0).visited = deqUrls (crawl cfg w st0).trace ∧
    (crawl cfg w st0).visited.Nodup ∧
    (∀ u ∈ fetchUrls (crawl cfg w st0).trace, u ∈ (crawl cfg w st0).visited) ∧
    (fetchUrls (crawl cfg w st0).trace).Nodup ∧
    (∀ x ∈ fetchEvents (crawl cfg w st0).trace,
      x ∈ deqEvents (crawl cfg w st0).trace ∧ x.2 ≤ cfg.max_depth) ∧
    (∀ x ∈ enqEvents (crawl cfg w st0).trace,
      0 < x.2 ∧ x.2 ≤ cfg.max_depth) ∧
    (∀ u, u ∉ deqUrls (crawl cfg w st0).trace →
      (crawl cfg w st0).depth_map u = st0.depth_map u) ∧
    (∀ x ∈ deqEvents (crawl cfg w st0).trace,
      (crawl cfg w st0).depth_map x.1 = some x.2 ∧ x.2 ≤ cfg.max_depth) := by
  unfold crawl
  exact crawlLoop_spec cfg w st0.depth_map (cfg.max_depth + 2)
    [(cfg.start_url, 0)]
    { visited := [], results := [], pages_crawled := 0,
      depth_map := st0.depth_map, trace := [] } 0
    (by simp) (by simp) (by simp) (by simp)
    (by simp [deqUrls]) (by simp)
    (by simp [fetchUrls, fetchEvents]) (by simp [fetchUrls, fetchEvents])
    (by simp [fetchEvents]) (by simp [enqEvents])
    (by simp) (by simp [deqEvents])

/-- **C2**: the frontier is processed in non-decreasing depth order with a
strict layer barrier.  Each ghost event of the crawl trace carries the
breadth-first layer it belongs to (`evLayer`; an enqueue onto layer `d + 1`
happens during layer `d`), and the layer indices along the trace are
non-decreasing: in particular every dequeue/fetch/link-check of layer `d`
precedes every dequeue and fetch of layer `d + 1`.  The barrier between
layers is the `await asyncio.gather` of `crawl`, which completes every
`_crawl_page` task of a batch — including its link-check fan-out — before
the loop dequeues the next layer; the embedding makes that barrier a
sequential fold, which this theorem shows keeps the trace layered. -/
theorem c2_depth_layering (cfg : CrawlerConfig) (w : World) (st0 : CrawlState) :
    List.Pairwise (· ≤ ·) ((crawl cfg w st0).trace.map evLayer) :=
  (crawl_spec cfg w st0).1

/-- **C3 counterexample**: a later discovery of an already-enqueued (but
not yet dequeued) URL is *not* a no-op with respect to the frontier.  In
the diamond world (`a` links to `p` and `q`; both link to `c`), pages `p`
and `q` are processed in the same layer; each discovers `c` while `c` is
not yet in `visited`, so `(c, 2)` is appended to the frontier twice — the
trace contains two `enq` events for `c`.  The URL is nevertheless dequeued
and fetched only once (the duplicate is filtered at dequeue time). -/
theorem c3_counterexample :
    ((crawl cfgA wDiamond stEmpty).trace.count
      (CrawlEv.enq ("http://a/c".data) 2)) = 2 ∧
    ((fetchUrls (crawl cfgA wDiamond stEmpty).trace).count
      ("http://a/c".data)) = 1 := by
  refine ⟨by decide, by decide⟩

/-- **C3 (amended)**: each normalized URL enters the visited set at most
once and is fetched as a page at most once; a discovery of a URL already
in `visited` is a no-op, but a URL discovered again while already enqueued
and not yet dequeued is appended to the frontier a second time, and the
duplicate is discarded at dequeue time by the visited check.  Formally:
`visited` is exactly the list of dequeued URLs and has no duplicates, and
the fetched URLs have no duplicates and all lie in `visited`. -/
theorem c3_visited_once (cfg : CrawlerConfig) (w : World) (st0 : CrawlState) :
    (crawl cfg w st0).visited = deqUrls (crawl cfg w st0).trace ∧
    (crawl cfg w st0).visited.Nodup ∧
    (fetchUrls (crawl cfg w st0).trace).Nodup ∧
    (∀ u ∈ fetchUrls (crawl cfg w st0).trace, u ∈ (crawl cfg w st0).visited) :=
  ⟨(crawl_spec cfg w st0).2.1, (crawl_spec cfg w st0).2.2.1,
   (crawl_spec cfg w st0).2.2.2.2.1, (crawl_spec cfg w st0).2.2.2.1⟩

/-- Witness for the amended C3 in the diamond world: the homepage is a
fetched URL, hence in `visited`. -/
theorem c3_visited_once_witness :
    "http://a".data ∈ (crawl cfgA wDiamond stEmpty).visited :=
  (c3_visited_once cfgA wDiamond stEmpty).2.2.2 ("http://a".data) (by decide)

/-- **C4**: no URL whose first-discovered depth exceeds `max_depth` is ever
fetched as a page.  Every page fetch happens for a dequeued URL at its
recorded first-discovery depth (`depth_map`), and that depth is at most
`max_depth`; moreover a URL is only enqueued at depth `d + 1` when the
discovering page was processed at a depth `d` strictly below `max_depth`
(so every frontier append carries a positive depth `≤ max_depth`). -/
theorem c4_depth_ceiling (cfg : CrawlerConfig) (w : World) (st0 : CrawlState) :
    (∀ x ∈ fetchEvents (crawl cfg w st0).trace,
      x ∈ deqEvents (crawl cfg w st0).trace ∧
      (crawl cfg w st0).depth_map x.1 = some x.2 ∧
      x.2 ≤ cfg.max_depth) ∧
    (∀ x ∈ enqEvents (crawl cfg w st0).trace,
      0 < x.2 ∧ x.2 ≤ cfg.max_depth) := by
  refine ⟨?_, (crawl_spec cfg w st0).2.2.2.2.2.2.1⟩
  intro x hx
  obtain ⟨hin, hle⟩ := (crawl_spec cfg w st0).2.2.2.2.2.1 x hx
  obtain ⟨hdm, _⟩ := (crawl_spec cfg w st0).2.2.2.2.2.2.2.2 x hin
  exact ⟨hin, hdm, hle⟩

/-- Witness for C4 in the diamond world (`max_depth = 2`): the fetch of the
homepage happened at its recorded depth 0 and the enqueue of `p` at depth
1, both within the ceiling. -/
theorem c4_depth_ceiling_witness :
    (("http://a".data, 0) ∈ deqEvents (crawl cfgA wDiamond stEmpty).trace ∧
      (crawl cfgA wDiamond stEmpty).depth_map ("http://a".data) = some 0 ∧
      0 ≤ cfgA.max_depth) ∧
    (0 < 1 ∧ 1 ≤ cfgA.max_depth) :=
  ⟨(c4_depth_ceiling cfgA wDiamond stEmpty).1 ("http://a".data, 0) (by decide),
   (c4_depth_ceiling cfgA wDiamond stEmpty).2 ("http://a/p".data, 1) (by decide)⟩

/-- A prior crawler state with a populated `depth_map` (as left behind by
an earlier `crawl()` call on the same instance). -/
def stOld : CrawlState :=
  { visited := ["junk".data], results := [], pages_crawled := 5,
    depth_map := fun u => if u = "http://old".data then some 7 else none,
    trace := [] }

/-- **C10**: `crawl()` resets the visited set, the results list and the
pages-crawled counter at entry — the outcome of `crawl` is entirely
independent of those fields of the prior state, depending only on its
`depth_map` — but it does not clear the depth map: the entry of any URL not
visited by the new crawl is left exactly as the previous crawl recorded
it. -/
theorem c10_depth_map_persists (cfg : CrawlerConfig) (w : World)
    (st0 : CrawlState) :
    (∀ st1 : CrawlState, st0.depth_map = st1.depth_map →
      crawl cfg w st0 = crawl cfg w st1) ∧
    (∀ u, u ∉ (crawl cfg w st0).visited →
      (crawl cfg w st0).depth_map u = st0.depth_map u) := by
  constructor
  · intro st1 h
    unfold crawl
    rw [h]
  · intro u hu
    refine (crawl_spec cfg w st0).2.2.2.2.2.2.2.1 u ?_
    rw [← (crawl_spec cfg w st0).2.1]
    exact hu

/-- Witness for C10: a crawl from a state with stale `visited`/counter
equals the crawl from the reset state (same `depth_map`), and the depth
recorded for `http://old` by the "previous" crawl is still observable
afterwards. -/
theorem c10_depth_map_persists_witness :
    crawl cfgA wDiamond stOld =
      crawl cfgA wDiamond
        { stOld with visited := [], results := [], pages_crawled := 0 } ∧
    (crawl cfgA wDiamond stOld).depth_map ("http://old".data) = some 7 := by
  constructor
  · exact (c10_depth_map_persists cfgA wDiamond stOld).1 _ rfl
  · rw [(c10_depth_map_persists cfgA wDiamond stOld).2 ("http://old".data)
      (by decide)]
    simp [stOld]

/-! ## C7: malformed raw links -/

/-- **C7 counterexample**: in the world where the homepage contains the
good relative link `p1` and the unparsable raw link `http://[x`, the
`ValueError` raised inside `_extract_links` is *not* a silent skip: the
page itself is recorded as an error `LinkResult`, none of the page links
(including the good `p1`) is checked or enqueued, and the whole trace is
just the dequeue and fetch of the homepage.  The crawl nevertheless
completes (the exception is caught inside `_crawl_page`), and the
pages-crawled counter was already incremented before extraction. -/
theorem c7_counterexample :
    (crawl cfgA wMalformed stEmpty).results =
      [pageExcResult ("http://a".data) ("Invalid IPv6 URL".data)] ∧
    (crawl cfgA wMalformed stEmpty).trace =
      [CrawlEv.deq ("http://a".data) 0,
       CrawlEv.fetchPage ("http://a".data) 0] ∧
    (crawl cfgA wMalformed stEmpty).pages_crawled = 1 := by
  refine ⟨by decide, by decide, by decide⟩

/-- **C7 (amended)**: a raw link that cannot be parsed as a URL
(`ValueError`, e.g. an unbalanced bracket) is not dropped silently:
`_normalize_url` raises, the exception aborts the extracting page's link
processing, the page is recorded as a single error `LinkResult` with
message "Invalid IPv6 URL", none of that page's links yields a
`LinkResult` or is enqueued, and the crawl itself continues (the exception
is caught by `_crawl_page`'s handler and never escapes `crawl()`;
`pages_crawled` was already incremented). -/
theorem c7_malformed_link_aborts_page (cfg : CrawlerConfig) (w : World)
    (url : Str) (depth : Nat) (st : CrawlState) (queue : List (Str × Nat))
    (status : Nat) (elapsed : Rat) (ctype : Str) (raws : List Str)
    (hsd : is_same_domainE cfg url = some true)
    (hp : w.page url = .resp status elapsed ctype raws)
    (h4 : status < 400)
    (hhtml : hasSub "text/html".data ctype = true)
    (hext : extract_linksE raws url = .error ()) :
    crawl_page cfg w url depth st queue =
      ({ st with
         pages_crawled := st.pages_crawled + 1
         results := st.results ++ [pageExcResult url ("Invalid IPv6 URL".data)]
         trace := st.trace ++ [CrawlEv.fetchPage url depth] }, queue) := by
  have h4x : ¬ 400 ≤ status := by omega
  simp [crawl_page, hsd, hp, h4x, hhtml, hext]

/-- Witness for the amended C7 at the concrete malformed world. -/
theorem c7_malformed_link_aborts_page_witness :
    crawl_page cfgA wMalformed ("http://a".data) 0 stEmpty [] =
      ({ stEmpty with
         pages_crawled := stEmpty.pages_crawled + 1
         results := stEmpty.results ++
           [pageExcResult ("http://a".data) ("Invalid IPv6 URL".data)]
         trace := stEmpty.trace ++ [CrawlEv.fetchPage ("http://a".data) 0] }, []) :=
  c7_malformed_link_aborts_page cfgA wMalformed ("http://a".data) 0 stEmpty []
    200 0 ("text/html".data) (["p1".data, "http://[x".data])
    (by decide) (by rfl) (by decide) (by decide) (by rfl)

/-! ## C8: idempotence of `_normalize_url` — toolbox -/

theorem toNat_ofNat_valid {n : Nat} (h : n.isValidChar) :
    (Char.ofNat n).toNat = n := by
  rw [Char.ofNat, dif_pos h]
  simp [Char.ofNatAux, Char.toNat, UInt32.toNat]

theorem isUpper_iff (c : Char) :
    c.isUpper = true ↔ 65 ≤ c.toNat ∧ c.toNat ≤ 90 := by
  simp [Char.isUpper, Char.toNat, UInt32.le_def, BitVec.le_def, UInt32.toNat]

theorem isLower_iff (c : Char) :
    c.isLower = true ↔ 97 ≤ c.toNat ∧ c.toNat ≤ 122 := by
  simp [Char.isLower, Char.toNat, UInt32.le_def, BitVec.le_def, UInt32.toNat]

theorem isDigit_iff (c : Char) :
    c.isDigit = true ↔ 48 ≤ c.toNat ∧ c.toNat ≤ 57 := by
  simp [Char.isDigit, Char.toNat, UInt32.le_def, BitVec.le_def, UInt32.toNat]

theorem toLower_eq (c : Char) : c.toLower =
    (if 65 ≤ c.toNat ∧ c.toNat ≤ 90 then Char.ofNat (c.toNat + 32) else c) :=
  rfl

theorem toLower_idem (c : Char) : c.toLower.toLower = c.toLower := by
  by_cases h : 65 ≤ c.toNat ∧ c.toNat ≤ 90
  · rw [toLower_eq c, if_pos h]
    have hval : (c.toNat + 32).isValidChar := Or.inl (by omega)
    have hv : (Char.ofNat (c.toNat + 32)).toNat = c.toNat + 32 :=
      toNat_ofNat_valid hval
    rw [toLower_eq, if_neg (by rw [hv]; omega)]
  · rw [toLower_eq c, if_neg h, toLower_eq c, if_neg h]

theorem isAlpha_toLower {c : Char} (h : c.isAlpha = true) :
    c.toLower.isAlpha = true := by
  rcases Bool.or_eq_true _ _ |>.mp (by simpa [Char.isAlpha] using h) with hu | hl
  · have hn := (isUpper_iff c).mp hu
    rw [toLower_eq, if_pos hn]
    have hval : (c.toNat + 32).isValidChar := Or.inl (by omega)
    have hv : (Char.ofNat (c.toNat + 32)).toNat = c.toNat + 32 :=
      toNat_ofNat_valid hval
    simp only [Char.isAlpha, Bool.or_eq_true]
    right
    rw [isLower_iff, hv]
    omega
  · have hn := (isLower_iff c).mp hl
    rw [toLower_eq, if_neg (by omega)]
    simp only [Char.isAlpha, Bool.or_eq_true]
    right
    exact hl

theorem isSchemeChar_toLower {c : Char} (h : isSchemeChar c = true) :
    isSchemeChar c.toLower = true := by
  simp only [isSchemeChar, Bool.or_eq_true, decide_eq_true_eq] at h ⊢
  rcases h with ((((ha | hd) | hp) | hm) | hdot)
  · left; left; left; left; exact isAlpha_toLower ha
  · have hn := (isDigit_iff c).mp hd
    have hc : c.toLower = c := by rw [toLower_eq, if_neg (by omega)]
    rw [hc]
    left; left; left; right; exact hd
  · subst hp; left; left; right; rfl
  · subst hm; left; right; rfl
  · subst hdot; right; rfl

theorem ne_colon_of_isSchemeChar {c : Char} (h : isSchemeChar c = true) :
    ¬(c = ':') := by
  intro h2
  subst h2
  simp [isSchemeChar] at h

theorem breakAt_not_mem {c : Char} : ∀ {l : Str}, c ∉ l → breakAt c l = (l, none) := by
  intro l
  induction l with
  | nil => intro _; rfl
  | cons a as ih =>
    intro h
    have ha : ¬(a = c) := fun he => h (by simp [he])
    have has : c ∉ as := fun hm => h (List.mem_cons_of_mem _ hm)
    simp [breakAt, ha, ih has]

theorem breakAt_first {c : Char} :
    ∀ {l1 : Str} (l2 : Str), c ∉ l1 → breakAt c (l1 ++ c :: l2) = (l1, some l2) := by
  intro l1
  induction l1 with
  | nil => intro l2 _; simp [breakAt]
  | cons a as ih =>
    intro l2 h
    have ha : ¬(a = c) := fun he => h (by simp [he])
    have has : c ∉ as := fun hm => h (List.mem_cons_of_mem _ hm)
    simp [breakAt, ha, ih l2 has]

/-- Structure of a `breakAt` result on an arbitrary string. -/
theorem breakAt_spec (c : Char) : ∀ (l : Str),
    (c ∉ (breakAt c l).1) ∧
    (∀ b, (breakAt c l).2 = some b → l = (breakAt c l).1 ++ c :: b) ∧
    ((breakAt c l).2 = none → (breakAt c l).1 = l) := by
  intro l
  induction l with
  | nil => simp [breakAt]
  | cons a as ih =>
    by_cases ha : a = c
    · subst ha
      refine ⟨by simp [breakAt], ?_, ?_⟩
      · intro b hb
        simp [breakAt] at hb ⊢
        simp [hb]
      · intro hb
        simp [breakAt] at hb
    · obtain ⟨ih1, ih2, ih3⟩ := ih
      refine ⟨?_, ?_, ?_⟩
      · simp only [breakAt, if_neg ha]
        intro hm
        rcases List.mem_cons.mp hm with he | hm2
        · exact ha he.symm
        · exact ih1 hm2
      · intro b hb
        simp only [breakAt, if_neg ha] at hb
        have h2 := ih2 b hb
        simp only [breakAt, if_neg ha, List.cons_append, List.cons.injEq,
          true_and]
        exact h2
      · intro hb
        simp only [breakAt, if_neg ha] at hb
        have h3 := ih3 hb
        simp only [breakAt, if_neg ha, List.cons.injEq, true_and]
        exact h3

theorem takeWhile_append_all {p : Char → Bool} :
    ∀ {a : Str} (b : Str), (∀ x ∈ a, p x = true) →
      (a ++ b).takeWhile p = a ++ b.takeWhile p := by
  intro a
  induction a with
  | nil => intro b _; simp
  | cons x xs ih =>
    intro b h
    have hx : p x = true := h x (by simp)
    simp only [List.cons_append, List.takeWhile_cons, hx, if_true]
    rw [ih b (fun y hy => h y (List.mem_cons_of_mem _ hy))]

theorem dropWhile_append_all {p : Char → Bool} :
    ∀ {a : Str} (b : Str), (∀ x ∈ a, p x = true) →
      (a ++ b).dropWhile p = b.dropWhile p := by
  intro a
  induction a with
  | nil => intro b _; simp
  | cons x xs ih =>
    intro b h
    have hx : p x = true := h x (by simp)
    simp only [List.cons_append, List.dropWhile_cons, hx, if_true]
    exact ih b (fun y hy => h y (List.mem_cons_of_mem _ hy))

theorem takeWhile_eq_self_of_all {p : Char → Bool} :
    ∀ {a : Str}, (∀ x ∈ a, p x = true) → a.takeWhile p = a := by
  intro a
  induction a with
  | nil => intro _; rfl
  | cons x xs ih =>
    intro h
    simp only [List.takeWhile_cons, h x (by simp), if_true]
    rw [ih (fun y hy => h y (List.mem_cons_of_mem _ hy))]

theorem dropWhile_eq_nil_of_all {p : Char → Bool} :
    ∀ {a : Str}, (∀ x ∈ a, p x = true) → a.dropWhile p = [] := by
  intro a
  induction a with
  | nil => intro _; rfl
  | cons x xs ih =>
    intro h
    simp only [List.dropWhile_cons, h x (by simp), if_true]
    exact ih (fun y hy => h y (List.mem_cons_of_mem _ hy))

theorem dropWhile_head_false {p : Char → Bool} :
    ∀ {l : Str} {c : Char} {rest : Str}, l.dropWhile p = c :: rest →
      p c = false := by
  intro l
  induction l with
  | nil => intro c rest h; simp at h
  | cons x xs ih =>
    intro c rest h
    by_cases hx : p x = true
    · rw [List.dropWhile_cons, if_pos hx] at h
      exact ih h
    · rw [List.dropWhile_cons, if_neg hx] at h
      cases h
      simpa using hx

theorem dropWhile_ne_nil {p : Char → Bool} {x : Char} :
    ∀ {l : Str}, x ∈ l → p x = false → l.dropWhile p ≠ [] := by
  intro l
  induction l with
  | nil => intro h; simp at h
  | cons a as ih =>
    intro hm hx
    by_cases hpa : p a = true
    · rw [List.dropWhile_cons, if_pos hpa]
      rcases List.mem_cons.mp hm with rfl | hm2
      · rw [hpa] at hx; cases hx
      · exact ih hm2 hx
    · rw [List.dropWhile_cons, if_neg hpa]
      simp

theorem mem_reverse_all {p : Char → Bool} {l : Str}
    (h : ∀ x ∈ l, p x = true) : ∀ x ∈ l.reverse, p x = true := by
  intro x hx
  exact h x (List.mem_reverse.mp hx)

theorem lastSeg_no_slash {s : Str} (h : ('/' : Char) ∉ s) : lastSeg s = s := by
  unfold lastSeg
  rw [takeWhile_eq_self_of_all, List.reverse_reverse]
  intro x hx
  have : x ∈ s := List.mem_reverse.mp hx
  simp only [Bool.not_eq_true']
  exact decide_eq_false (fun he => h (he ▸ this))

theorem beforeLastSeg_no_slash {s : Str} (h : ('/' : Char) ∉ s) :
    beforeLastSeg s = [] := by
  unfold beforeLastSeg
  rw [dropWhile_eq_nil_of_all]
  · rfl
  · intro x hx
    have : x ∈ s := List.mem_reverse.mp hx
    simp only [Bool.not_eq_true']
    exact decide_eq_false (fun he => h (he ▸ this))

theorem beforeLastSeg_append_lastSeg (s : Str) :
    beforeLastSeg s ++ lastSeg s = s := by
  unfold beforeLastSeg lastSeg
  rw [← List.reverse_append, List.takeWhile_append_dropWhile,
    List.reverse_reverse]

theorem lastSeg_append {s t : Str} (h : ('/' : Char) ∉ t) :
    lastSeg (s ++ t) = lastSeg s ++ t := by
  unfold lastSeg
  rw [List.reverse_append, takeWhile_append_all]
  · rw [List.reverse_append, List.reverse_reverse]
  · intro x hx
    have : x ∈ t := List.mem_reverse.mp hx
    simp only [Bool.not_eq_true']
    exact decide_eq_false (fun he => h (he ▸ this))

theorem beforeLastSeg_append {s t : Str} (h : ('/' : Char) ∉ t) :
    beforeLastSeg (s ++ t) = beforeLastSeg s := by
  unfold beforeLastSeg
  rw [List.reverse_append, dropWhile_append_all]
  intro x hx
  have : x ∈ t := List.mem_reverse.mp hx
  simp only [Bool.not_eq_true']
  exact decide_eq_false (fun he => h (he ▸ this))

theorem mem_lastSeg {s : Str} {x : Char} (h : x ∈ lastSeg s) : x ∈ s := by
  have := beforeLastSeg_append_lastSeg s
  rw [← this]
  exact List.mem_append_right _ h

theorem contains_iff_mem {l : Str} {c : Char} : l.contains c = true ↔ c ∈ l := by
  simp [List.contains]

/-- Splitting `path;params` back apart: exact when `params` is slash-free
and the last segment of `path` is semicolon-free. -/
theorem splitparams_exact {p pr : Str} (hpr : ('/' : Char) ∉ pr)
    (hp : (';' : Char) ∉ lastSeg p) :
    splitparams (p ++ ';' :: pr) = (p, pr) := by
  have hnt : ('/' : Char) ∉ (';' :: pr : Str) := by
    intro hm
    rcases List.mem_cons.mp hm with he | hm2
    · cases he
    · exact hpr hm2
  by_cases hsl : ('/' : Char) ∈ p
  · have hc : (p ++ ';' :: pr : Str).contains '/' = true :=
      contains_iff_mem.mpr (List.mem_append_left _ hsl)
    rw [splitparams, if_pos hc, lastSeg_append hnt, breakAt_first pr hp,
      beforeLastSeg_append hnt]
    simp only [Prod.mk.injEq]
    exact ⟨beforeLastSeg_append_lastSeg p, trivial⟩
  · have hps : (';' : Char) ∉ p := by
      rw [← lastSeg_no_slash hsl]
      exact hp
    have hc : (p ++ ';' :: pr : Str).contains '/' = false := by
      rw [Bool.eq_false_iff]
      intro hcc
      have := contains_iff_mem.mp hcc
      rcases List.mem_append.mp this with hm | hm
      · exact hsl hm
      · exact hnt hm
    rw [splitparams, if_neg (by rw [hc]; simp), breakAt_first pr hps]

/-- When the last segment has no semicolon, `splitparams` is a no-op. -/
theorem splitparams_noop {p : Str} (hp : (';' : Char) ∉ lastSeg p) :
    splitparams p = (p, []) := by
  by_cases hsl : ('/' : Char) ∈ p
  · have hc : p.contains '/' = true := contains_iff_mem.mpr hsl
    rw [splitparams, if_pos hc, breakAt_not_mem hp]
  · have hc : p.contains '/' = false := by
      rw [Bool.eq_false_iff]
      exact fun hcc => hsl (contains_iff_mem.mp hcc)
    have hps : (';' : Char) ∉ p := by
      rw [← lastSeg_no_slash hsl]
      exact hp
    rw [splitparams, if_neg (by rw [hc]; simp), breakAt_not_mem hps]

/-- A parsed (hence lowercased, well-formed) scheme. -/
def validScheme (s : Str) : Prop :=
  s ≠ [] ∧ (∀ c cs, s = c :: cs → c.isAlpha = true) ∧
  s.all isSchemeChar = true ∧ s.map Char.toLower = s

theorem splitScheme_exact {s : Str} (r : Str) (hs : validScheme s) :
    splitScheme (s ++ ':' :: r) = some (s, r)  := by
  obtain ⟨hne, hhead, hall, hlow⟩ := hs
  obtain ⟨c, cs, rfl⟩ := List.exists_cons_of_ne_nil hne
  have hcolon : (':' : Char) ∉ (c :: cs : Str) := by
    intro hm
    have hsc := List.all_eq_true.mp hall ':' hm
    exact ne_colon_of_isSchemeChar hsc rfl
  have hcond : (c.isAlpha && (c :: cs).all isSchemeChar) = true := by
    simp [hhead c cs rfl, hall]
  simp only [splitScheme, breakAt_first r hcolon, hcond, if_true]
  rw [hlow]

/-- `_splitnetloc`: scanning `netloc ++ rest` stops exactly at `rest` when
the netloc is delimiter-free and `rest` is empty or starts with a
delimiter. -/
theorem splitNetloc_exact {n rest : Str}
    (hn : ∀ x ∈ n, netlocDelim x = false)
    (hrest : rest = [] ∨ ∃ c cs, rest = c :: cs ∧ netlocDelim c = true) :
    (n ++ rest).takeWhile (fun c => !(netlocDelim c)) = n ∧
    (n ++ rest).dropWhile (fun c => !(netlocDelim c)) = rest := by
  have hpass : ∀ x ∈ n, (fun c => !(netlocDelim c)) x = true := by
    intro x hx
    simp [hn x hx]
  constructor
  · rw [takeWhile_append_all rest hpass]
    rcases hrest with rfl | ⟨c, cs, rfl, hc⟩
    · simp
    · simp [List.takeWhile_cons, hc]
  · rw [dropWhile_append_all rest hpass]
    rcases hrest with rfl | ⟨c, cs, rfl, hc⟩
    · simp
    · simp [List.dropWhile_cons, hc]

theorem takeWhile_append_of_ne_all {p : Char → Bool} :
    ∀ {a : Str} (b : Str), (∃ x ∈ a, p x = false) →
      (a ++ b).takeWhile p = a.takeWhile p := by
  intro a
  induction a with
  | nil => intro b h; simp at h
  | cons x xs ih =>
    intro b h
    by_cases hx : p x = true
    · simp only [List.cons_append, List.takeWhile_cons, hx, if_true]
      obtain ⟨y, hy, hyf⟩ := h
      rcases List.mem_cons.mp hy with rfl | hy2
      · rw [hx] at hyf; cases hyf
      · rw [ih b ⟨y, hy2, hyf⟩]
    · simp only [List.cons_append, List.takeWhile_cons,
        Bool.not_eq_true] at hx ⊢
      rw [hx]
      simp

theorem lastSeg_slash_cons (p : Str) : lastSeg ('/' :: p) = lastSeg p := by
  by_cases hp : ('/' : Char) ∈ p
  · unfold lastSeg
    rw [List.reverse_cons, takeWhile_append_of_ne_all]
    exact ⟨'/', List.mem_reverse.mpr hp, by simp⟩
  · rw [lastSeg_no_slash hp]
    unfold lastSeg
    rw [List.reverse_cons, takeWhile_append_all]
    · simp [List.takeWhile_cons]
    · intro x hx
      have : x ∈ p := List.mem_reverse.mp hx
      simp only [Bool.not_eq_true']
      exact decide_eq_false (fun he => hp (he ▸ this))

/-- `?query` suffix written by `urlunsplit`. -/
def optQuery (q : Str) : Str := if q ≠ [] then '?' :: q else []

/-- `#fragment` suffix written by `urlunsplit`. -/
def optFrag (f : Str) : Str := if f ≠ [] then '#' :: f else []

/-- The `//netloc`-or-path part written by `urlunsplit`. -/
def netBody (n u : Str) : Str :=
  if n ≠ [] ∨ (u ≠ [] ∧ u.take 2 = ['/', '/']) then
    ['/', '/'] ++ n ++ (if u ≠ [] ∧ u.take 1 ≠ ['/'] then '/' :: u else u)
  else u

theorem urlunsplit_decomp {s : Str} (n u q f : Str) (hs : s ≠ []) :
    urlunsplit s n u q f =
      s ++ ':' :: (netBody n u ++ (optQuery q ++ optFrag f)) := by
  simp only [urlunsplit, netBody, optQuery, optFrag]
  split_ifs <;> simp_all [List.append_assoc, List.cons_append]

/-- The path adjustment CPython `urlunsplit` applies: prepend `/` when an
authority part is written and the path does not already start with `/`.
Re-parsing the unsplit string recovers this adjusted path. -/
def fixPath (n u : Str) : Str :=
  if (n ≠ [] ∨ (u ≠ [] ∧ u.take 2 = ['/', '/'])) ∧
     (u ≠ [] ∧ u.take 1 ≠ ['/']) then '/' :: u else u

theorem netBody_fixPath (n u : Str) : netBody n (fixPath n u) = netBody n u := by
  unfold fixPath
  by_cases hc : (n ≠ [] ∨ (u ≠ [] ∧ u.take 2 = ['/', '/'])) ∧
      (u ≠ [] ∧ u.take 1 ≠ ['/'])
  · rw [if_pos hc]
    obtain ⟨hC, hu, h1⟩ := hc
    obtain ⟨c, t, rfl⟩ := List.exists_cons_of_ne_nil hu
    have hcne : ¬(c = '/') := by
      intro he
      subst he
      exact h1 (by simp)
    have hn : n ≠ [] := by
      rcases hC with hn | ⟨_, h2⟩
      · exact hn
      · exfalso
        apply hcne
        cases t with
        | nil => simp at h2
        | cons d ds =>
          simp at h2
          exact h2.1
    simp [netBody, hn, hcne]
  · rw [if_neg hc]

/-- The `path;params` string `urlunparse` rebuilds before calling
`urlunsplit`. -/
def pathParams (P : UrlParts) : Str :=
  if P.params ≠ [] then P.path ++ ';' :: P.params else P.path

/-- The parts recovered when re-parsing `urlunparse P`: identical except
that the path may have gained the leading `/` written by `urlunsplit`. -/
def fixParts (P : UrlParts) : UrlParts :=
  if (P.netloc ≠ [] ∨ (pathParams P ≠ [] ∧ (pathParams P).take 2 = ['/', '/'])) ∧
     (pathParams P ≠ [] ∧ (pathParams P).take 1 ≠ ['/']) then
    { P with path := '/' :: P.path }
  else P

theorem fixParts_scheme (P : UrlParts) : (fixParts P).scheme = P.scheme := by
  unfold fixParts
  split <;> rfl

theorem fixParts_netloc (P : UrlParts) : (fixParts P).netloc = P.netloc := by
  unfold fixParts
  split <;> rfl

theorem fixParts_params (P : UrlParts) : (fixParts P).params = P.params := by
  unfold fixParts
  split <;> rfl

theorem fixParts_query (P : UrlParts) : (fixParts P).query = P.query := by
  unfold fixParts
  split <;> rfl

theorem fixParts_fragment (P : UrlParts) : (fixParts P).fragment = P.fragment := by
  unfold fixParts
  split <;> rfl

theorem pathParams_fixParts (P : UrlParts) :
    pathParams (fixParts P) = fixPath P.netloc (pathParams P) := by
  unfold fixParts fixPath
  by_cases hc : (P.netloc ≠ [] ∨ (pathParams P ≠ [] ∧
      (pathParams P).take 2 = ['/', '/'])) ∧
      (pathParams P ≠ [] ∧ (pathParams P).take 1 ≠ ['/'])
  · rw [if_pos hc, if_pos hc]
    unfold pathParams
    by_cases hp : P.params ≠ [] <;> simp [hp]
  · rw [if_neg hc, if_neg hc]

theorem urlunparse_eq (P : UrlParts) :
    urlunparse P = urlunsplit P.scheme P.netloc (pathParams P) P.query P.fragment :=
  rfl

/-! ## Round-trip machinery for `urlparse (urlunparse P)` (claim C8) -/

theorem mem_takeWhile_pred {p : Char → Bool} :
    ∀ {l : Str} {x : Char}, x ∈ l.takeWhile p → p x = true := by
  intro l
  induction l with
  | nil => intro x h; simp at h
  | cons a as ih =>
    intro x h
    by_cases hpa : p a = true
    · rw [List.takeWhile_cons, if_pos hpa] at h
      rcases List.mem_cons.mp h with rfl | h2
      · exact hpa
      · exact ih h2
    · rw [List.takeWhile_cons, if_neg hpa] at h
      simp at h

theorem not_slash_mem_lastSeg (p : Str) : ('/' : Char) ∉ lastSeg p := by
  unfold lastSeg
  intro hm
  have h1 := List.mem_reverse.mp hm
  have h2 := mem_takeWhile_pred h1
  simp at h2

theorem mem_beforeLastSeg {p : Str} {x : Char} (h : x ∈ beforeLastSeg p) : x ∈ p := by
  have hb := beforeLastSeg_append_lastSeg p
  rw [← hb]
  exact List.mem_append_left _ h

theorem lastSeg_beforeLastSeg_nil {p : Str} (h : ('/' : Char) ∈ p) :
    lastSeg (beforeLastSeg p) = [] := by
  unfold lastSeg beforeLastSeg
  rw [List.reverse_reverse]
  have hne : p.reverse.dropWhile (fun c => !(c = '/')) ≠ [] :=
    dropWhile_ne_nil (List.mem_reverse.mpr h) (by simp)
  obtain ⟨c, rest, hD⟩ := List.exists_cons_of_ne_nil hne
  rw [hD]
  have hc := dropWhile_head_false hD
  rw [List.takeWhile_cons, if_neg (by simp [hc])]
  rfl

theorem breakDrop_not_mem {c : Char} {l : Str} (h : c ∉ l) :
    breakDrop c l = (l, []) := by
  unfold breakDrop
  rw [breakAt_not_mem h]

theorem breakDrop_first {c : Char} {pre : Str} (rest : Str) (h : c ∉ pre) :
    breakDrop c (pre ++ c :: rest) = (pre, rest) := by
  unfold breakDrop
  rw [breakAt_first rest h]

theorem breakDrop_wf (c : Char) (l : Str) :
    (c ∉ (breakDrop c l).1) ∧
    (∀ x ∈ (breakDrop c l).1, x ∈ l) ∧
    (∀ x ∈ (breakDrop c l).2, x ∈ l) := by
  have hspec := breakAt_spec c l
  rcases hB : breakAt c l with ⟨a, ob⟩
  rw [hB] at hspec
  obtain ⟨hs1, hs2, hs3⟩ := hspec
  cases ob with
  | some b =>
    have hres : breakDrop c l = (a, b) := by unfold breakDrop; rw [hB]
    have hdec : l = a ++ c :: b := hs2 b rfl
    rw [hres]
    refine ⟨hs1, ?_, ?_⟩
    · intro x hx
      rw [hdec]
      exact List.mem_append_left _ hx
    · intro x hx
      rw [hdec]
      exact List.mem_append_right _ (List.mem_cons_of_mem _ hx)
  | none =>
    have hres : breakDrop c l = (a, []) := by unfold breakDrop; rw [hB]
    have ha : a = l := hs3 rfl
    rw [hres]
    refine ⟨hs1, ?_, ?_⟩
    · intro x hx
      exact ha ▸ hx
    · intro x hx
      simp at hx

theorem schemeSplit_of_some {url s r : Str} (d : Str)
    (h : splitScheme url = some (s, r)) : schemeSplit url d = (s, r) := by
  unfold schemeSplit
  rw [h]

theorem map_toLower_fixed : ∀ {l : Str}, (∀ x ∈ l, x.toLower = x) →
    l.map Char.toLower = l := by
  intro l
  induction l with
  | nil => intro _; rfl
  | cons a as ih =>
    intro h
    rw [List.map_cons, h a (by simp), ih (fun y hy => h y (List.mem_cons_of_mem _ hy))]

theorem splitScheme_valid {url s r : Str} (h : splitScheme url = some (s, r)) :
    validScheme s := by
  unfold splitScheme at h
  rcases hB : breakAt ':' url with ⟨pre, ob⟩
  rw [hB] at h
  rcases ob with _ | rest
  · simp at h
  · rcases pre with _ | ⟨c, cs⟩
    · simp at h
    · by_cases hcond : (c.isAlpha && (c :: cs).all isSchemeChar) = true
      · simp only [hcond, if_true] at h
        obtain ⟨h1, h2⟩ := Prod.mk.injEq .. ▸ Option.some.inj h
        subst h1
        have hA : c.isAlpha = true := by
          have := hcond
          simp [Bool.and_eq_true] at this
          exact this.1
        have hall : ∀ x ∈ (c :: cs : Str), isSchemeChar x = true := by
          have := hcond
          simp [Bool.and_eq_true, List.all_eq_true] at this
          intro x hx
          rcases List.mem_cons.mp hx with rfl | hx2
          · exact this.2.1
          · exact this.2.2 x hx2
        refine ⟨by simp, ?_, ?_, ?_⟩
        · intro d ds hd
          rw [List.map_cons] at hd
          injection hd with hd1 _
          rw [← hd1]
          exact isAlpha_toLower hA
        · rw [List.all_eq_true]
          intro x hx
          obtain ⟨y, hy, rfl⟩ := List.mem_map.mp hx
          exact isSchemeChar_toLower (hall y hy)
        · apply map_toLower_fixed
          intro x hx
          obtain ⟨y, _, rfl⟩ := List.mem_map.mp hx
          exact toLower_idem y
      · simp only [hcond, if_false] at h
        simp at h

theorem not_mem_optQuery {c : Char} {q : Str} (hc : ¬(c = '?')) (h : c ∉ q) :
    c ∉ optQuery q := by
  unfold optQuery
  split
  · intro hm
    rcases List.mem_cons.mp hm with he | hm2
    · exact hc he
    · exact h hm2
  · simp

theorem breakDrop_optFrag {pre : Str} (f : Str) (h : ('#' : Char) ∉ pre) :
    breakDrop '#' (pre ++ optFrag f) = (pre, f) := by
  unfold optFrag
  by_cases hf : f = []
  · subst hf
    rw [if_neg (by simp), List.append_nil, breakDrop_not_mem h]
  · rw [if_pos hf, breakDrop_first f h]

theorem breakDrop_optQuery {pre : Str} (q : Str) (h : ('?' : Char) ∉ pre) :
    breakDrop '?' (pre ++ optQuery q) = (pre, q) := by
  unfold optQuery
  by_cases hq : q = []
  · subst hq
    rw [if_neg (by simp), List.append_nil, breakDrop_not_mem h]
  · rw [if_pos hq, breakDrop_first q h]

theorem qf_shape (q f : Str) :
    optQuery q ++ optFrag f = [] ∨
    ∃ c cs, optQuery q ++ optFrag f = c :: cs ∧ netlocDelim c = true ∧ ¬(c = '/') := by
  unfold optQuery optFrag
  by_cases hq : q = []
  · subst hq
    rw [if_neg (by simp), List.nil_append]
    by_cases hf : f = []
    · subst hf
      rw [if_neg (by simp)]
      exact Or.inl rfl
    · rw [if_pos hf]
      exact Or.inr ⟨'#', f, rfl, by decide, by decide⟩
  · rw [if_pos hq]
    exact Or.inr ⟨'?', q ++ (if f ≠ [] then '#' :: f else []), rfl, by decide, by decide⟩

theorem take2_ne {u t : Str}
    (hu : ¬(u ≠ [] ∧ u.take 2 = ['/', '/']))
    (ht : t = [] ∨ ∃ c cs, t = c :: cs ∧ ¬(c = '/')) :
    (u ++ t).take 2 ≠ ['/', '/'] := by
  intro heq
  rcases u with _ | ⟨a, _ | ⟨b, u2⟩⟩
  · rcases ht with rfl | ⟨c, cs, rfl, hc⟩
    · simp at heq
    · have h2 : c :: cs.take 1 = ['/', '/'] := heq
      injection h2 with h3 _
      exact hc h3
  · rcases ht with rfl | ⟨c, cs, rfl, hc⟩
    · have h2 : ([a] : Str) = ['/', '/'] := heq
      simp at h2
    · have h2 : ([a, c] : Str) = ['/', '/'] := heq
      injection h2 with h3 h4
      injection h4 with h5 _
      exact hc h5
  · have h2 : ([a, b] : Str) = ['/', '/'] := heq
    exact hu ⟨by simp, by rw [show ((a :: b :: u2 : Str)).take 2 = [a, b] from rfl, h2]⟩

theorem not_mem_fixPath {c : Char} {n u : Str} (hc : ¬(c = '/')) (h : c ∉ u) :
    c ∉ fixPath n u := by
  unfold fixPath
  split
  · intro hm
    rcases List.mem_cons.mp hm with he | hm2
    · exact hc he
    · exact h hm2
  · exact h

theorem fixPath_eq_cond {n u : Str}
    (hC : n ≠ [] ∨ (u ≠ [] ∧ u.take 2 = ['/', '/'])) :
    (if u ≠ [] ∧ u.take 1 ≠ (['/'] : Str) then '/' :: u else u) = fixPath n u := by
  unfold fixPath
  by_cases hp : u ≠ [] ∧ u.take 1 ≠ (['/'] : Str)
  · rw [if_pos hp, if_pos ⟨hC, hp⟩]
  · rw [if_neg hp, if_neg (fun hh => hp hh.2)]

theorem fixPath_head {n u : Str}
    (hC : n ≠ [] ∨ (u ≠ [] ∧ u.take 2 = ['/', '/'])) (hu : u ≠ []) :
    ∃ t, fixPath n u = '/' :: t := by
  unfold fixPath
  by_cases hp : u ≠ [] ∧ u.take 1 ≠ (['/'] : Str)
  · rw [if_pos ⟨hC, hp⟩]
    exact ⟨u, rfl⟩
  · rw [if_neg (fun hh => hp hh.2)]
    have h1 : u.take 1 = ['/'] := by
      by_contra hne
      exact hp ⟨hu, hne⟩
    obtain ⟨a, t, rfl⟩ := List.exists_cons_of_ne_nil hu
    have h2 : ([a] : Str) = ['/'] := h1
    injection h2 with h3 _
    subst h3
    exact ⟨t, rfl⟩

/-- Inversion of a successful `urlsplitE` run: the result's fields in terms
of the intermediate strings of the algorithm. -/
theorem urlsplitE_ok_elim {url dflt : Str} {P : UrlParts}
    (h : urlsplitE url dflt = .ok P) :
    ∃ r0 R1,
      schemeSplit url dflt = (P.scheme, r0) ∧
      ((r0.take 2 = ['/', '/'] ∧
        P.netloc = (r0.drop 2).takeWhile (fun c => !(netlocDelim c)) ∧
        R1 = (r0.drop 2).dropWhile (fun c => !(netlocDelim c))) ∨
       (¬(r0.take 2 = ['/', '/']) ∧ P.netloc = [] ∧ R1 = r0)) ∧
      unbalancedBrackets P.netloc = false ∧
      P.path = (breakDrop '?' (breakDrop '#' R1).1).1 ∧
      P.params = [] ∧
      P.query = (breakDrop '?' (breakDrop '#' R1).1).2 ∧
      P.fragment = (breakDrop '#' R1).2 := by
  simp only [urlsplitE] at h
  by_cases h2 : (schemeSplit url dflt).2.take 2 = ['/', '/']
  · rw [if_pos h2, if_pos h2] at h
    by_cases hbal : unbalancedBrackets
        (((schemeSplit url dflt).2.drop 2).takeWhile (fun c => !(netlocDelim c))) = true
    · rw [if_pos hbal] at h
      exact Except.noConfusion h
    · rw [if_neg hbal] at h
      obtain rfl := (Except.ok.inj h).symm
      refine ⟨(schemeSplit url dflt).2,
        ((schemeSplit url dflt).2.drop 2).dropWhile (fun c => !(netlocDelim c)),
        rfl, Or.inl ⟨h2, rfl, rfl⟩, ?_, rfl, rfl, rfl, rfl⟩
      exact Bool.eq_false_iff.mpr hbal
  · rw [if_neg h2, if_neg h2] at h
    rw [if_neg (by decide : ¬(unbalancedBrackets ([] : Str) = true))] at h
    obtain rfl := (Except.ok.inj h).symm
    exact ⟨(schemeSplit url dflt).2, (schemeSplit url dflt).2,
      rfl, Or.inr ⟨h2, rfl, rfl⟩, rfl, rfl, rfl, rfl, rfl⟩

/-- Well-formedness facts about any successful `urlsplitE` result. -/
theorem urlsplitE_wf {url dflt : Str} {P : UrlParts}
    (h : urlsplitE url dflt = .ok P) :
    (∀ x ∈ P.netloc, netlocDelim x = false) ∧
    unbalancedBrackets P.netloc = false ∧
    (('?' : Char) ∉ P.path) ∧ (('#' : Char) ∉ P.path) ∧
    (('#' : Char) ∉ P.query) ∧ P.params = [] := by
  obtain ⟨r0, R1, _, hnl, hbal, hpath, hparams, hquery, _⟩ := urlsplitE_ok_elim h
  obtain ⟨hfr1, hfr2, hfr3⟩ := breakDrop_wf '#' R1
  obtain ⟨hpq1, hpq2, hpq3⟩ := breakDrop_wf '?' (breakDrop '#' R1).1
  refine ⟨?_, hbal, ?_, ?_, ?_, hparams⟩
  · rcases hnl with ⟨_, hN, _⟩ | ⟨_, hN, _⟩
    · rw [hN]
      intro x hx
      have := mem_takeWhile_pred hx
      simpa using this
    · rw [hN]
      intro x hx
      simp at hx
  · rw [hpath]
    exact hpq1
  · rw [hpath]
    intro hm
    exact hfr1 (hpq2 _ hm)
  · rw [hquery]
    intro hm
    exact hfr1 (hpq3 _ hm)

/-- Well-formedness of the components of a parsed URL: these are exactly the
properties needed for `urlunparse` followed by `urlparse` to round-trip. -/
structure WFParts (P : UrlParts) : Prop where
  netloc_nd : ∀ x ∈ P.netloc, netlocDelim x = false
  netloc_bal : unbalancedBrackets P.netloc = false
  path_nq : ('?' : Char) ∉ P.path
  path_nh : ('#' : Char) ∉ P.path
  params_nsl : ('/' : Char) ∉ P.params
  params_nq : ('?' : Char) ∉ P.params
  params_nh : ('#' : Char) ∉ P.params
  query_nh : ('#' : Char) ∉ P.query
  params_cond1 : P.scheme ∈ uses_params → (';' : Char) ∉ lastSeg P.path
  params_cond2 : P.params ≠ [] → P.scheme ∈ uses_params

/-- Structure of a `_splitparams` result on an arbitrary path. -/
theorem splitparams_wf (p : Str) :
    (∀ x ∈ (splitparams p).1, x ∈ p) ∧
    (∀ x ∈ (splitparams p).2, x ∈ lastSeg p) ∧
    ((';' : Char) ∉ lastSeg (splitparams p).1) ∧
    (('/' : Char) ∉ (splitparams p).2) := by
  by_cases hc : p.contains '/' = true
  · have hspec := breakAt_spec ';' (lastSeg p)
    rcases hB : breakAt ';' (lastSeg p) with ⟨a, ob⟩
    rw [hB] at hspec
    obtain ⟨hs1, hs2, hs3⟩ := hspec
    cases ob with
    | some b =>
      have hdec : lastSeg p = a ++ ';' :: b := hs2 b rfl
      have hres : splitparams p = (beforeLastSeg p ++ a, b) := by
        unfold splitparams
        rw [if_pos hc, hB]
      rw [hres]
      have hslash := not_slash_mem_lastSeg p
      have hamem : ∀ x ∈ a, x ∈ lastSeg p := by
        intro x hx
        rw [hdec]
        exact List.mem_append_left _ hx
      have hbmem : ∀ x ∈ b, x ∈ lastSeg p := by
        intro x hx
        rw [hdec]
        exact List.mem_append_right _ (List.mem_cons_of_mem _ hx)
      refine ⟨?_, hbmem, ?_, ?_⟩
      · intro x hx
        rcases List.mem_append.mp hx with h1 | h2
        · exact mem_beforeLastSeg h1
        · exact mem_lastSeg (hamem x h2)
      · have hano : ('/' : Char) ∉ a := fun hm => hslash (hamem _ hm)
        rw [lastSeg_append hano, lastSeg_beforeLastSeg_nil (contains_iff_mem.mp hc),
          List.nil_append]
        exact hs1
      · intro hm
        exact hslash (hbmem _ hm)
    | none =>
      have hres : splitparams p = (p, []) := by
        unfold splitparams
        rw [if_pos hc, hB]
      rw [hres]
      have ha : a = lastSeg p := hs3 rfl
      refine ⟨fun x hx => hx, by simp, ?_, by simp⟩
      rw [← ha]
      exact hs1
  · have hps : ('/' : Char) ∉ p := fun hm => hc (contains_iff_mem.mpr hm)
    have hspec := breakAt_spec ';' p
    rcases hB : breakAt ';' p with ⟨a, ob⟩
    rw [hB] at hspec
    obtain ⟨hs1, hs2, hs3⟩ := hspec
    cases ob with
    | some b =>
      have hdec : p = a ++ ';' :: b := hs2 b rfl
      have hres : splitparams p = (a, b) := by
        unfold splitparams
        rw [if_neg hc, hB]
      rw [hres]
      have hls : lastSeg p = p := lastSeg_no_slash hps
      refine ⟨?_, ?_, ?_, ?_⟩
      · intro x hx
        rw [hdec]
        exact List.mem_append_left _ hx
      · intro x hx
        rw [hls, hdec]
        exact List.mem_append_right _ (List.mem_cons_of_mem _ hx)
      · have hanos : ('/' : Char) ∉ a := fun hm =>
          hps (by rw [hdec]; exact List.mem_append_left _ hm)
        rw [lastSeg_no_slash hanos]
        exact hs1
      · intro hm
        exact hps (by rw [hdec]; exact List.mem_append_right _ (List.mem_cons_of_mem _ hm))
    | none =>
      have hres : splitparams p = (p, []) := by
        unfold splitparams
        rw [if_neg hc, hB]
      rw [hres]
      have ha : a = p := hs3 rfl
      refine ⟨fun x hx => hx, by simp, ?_, by simp⟩
      intro hm
      exact (ha ▸ hs1) (mem_lastSeg hm)

/-- Every successful `urlparseE` result is well-formed. -/
theorem urlparseE_wf {url dflt : Str} {Q : UrlParts}
    (h : urlparseE url dflt = .ok Q) : WFParts Q := by
  rcases hS : urlsplitE url dflt with e | P
  · simp only [urlparseE, hS] at h
    exact Except.noConfusion h
  · simp only [urlparseE, hS] at h
    obtain ⟨hnd, hbal, hpq, hph, hqh, hpar⟩ := urlsplitE_wf hS
    by_cases hg : P.scheme ∈ uses_params ∧ (';' : Char) ∈ P.path
    · rw [if_pos hg] at h
      obtain rfl := (Except.ok.inj h).symm
      obtain ⟨w1, w2, w3, w4⟩ := splitparams_wf P.path
      exact {
        netloc_nd := hnd
        netloc_bal := hbal
        path_nq := fun hm => hpq (w1 _ hm)
        path_nh := fun hm => hph (w1 _ hm)
        params_nsl := w4
        params_nq := fun hm => hpq (mem_lastSeg (w2 _ hm))
        params_nh := fun hm => hph (mem_lastSeg (w2 _ hm))
        query_nh := hqh
        params_cond1 := fun _ => w3
        params_cond2 := fun _ => hg.1 }
    · rw [if_neg hg] at h
      obtain rfl := (Except.ok.inj h).symm
      exact {
        netloc_nd := hnd
        netloc_bal := hbal
        path_nq := hpq
        path_nh := hph
        params_nsl := by rw [hpar]; simp
        params_nq := by rw [hpar]; simp
        params_nh := by rw [hpar]; simp
        query_nh := hqh
        params_cond1 := fun hup hm => hg ⟨hup, mem_lastSeg hm⟩
        params_cond2 := fun hne => absurd hpar hne }

/-- `urlparse` only refines the path/params of `urlsplit`; scheme and netloc
pass through unchanged. -/
theorem urlparseE_netloc {url dflt : Str} {Q : UrlParts}
    (h : urlparseE url dflt = .ok Q) :
    ∃ P, urlsplitE url dflt = .ok P ∧ Q.netloc = P.netloc ∧ Q.scheme = P.scheme := by
  rcases hS : urlsplitE url dflt with e | P
  · simp only [urlparseE, hS] at h
    exact Except.noConfusion h
  · simp only [urlparseE, hS] at h
    have hQP : Q.netloc = P.netloc ∧ Q.scheme = P.scheme := by
      split at h <;> (obtain rfl := (Except.ok.inj h).symm; exact ⟨rfl, rfl⟩)
    exact ⟨P, rfl, hQP⟩

/-- The scheme of a parse result: either the default (no scheme present in
the input) or the scheme recognised by `splitScheme`. -/
theorem urlparseE_scheme_split {url dflt : Str} {Q : UrlParts}
    (h : urlparseE url dflt = .ok Q) :
    (splitScheme url = none ∧ Q.scheme = dflt) ∨
    (∃ r, splitScheme url = some (Q.scheme, r)) := by
  obtain ⟨P, hS, _, hsc⟩ := urlparseE_netloc h
  obtain ⟨r0, R1, hsch, _⟩ := urlsplitE_ok_elim hS
  rw [hsc]
  unfold schemeSplit at hsch
  rcases hsp : splitScheme url with _ | sr
  · rw [hsp] at hsch
    have h2 : (dflt, url) = (P.scheme, r0) := hsch
    left
    exact ⟨rfl, ((Prod.ext_iff.mp h2).1).symm⟩
  · rw [hsp] at hsch
    have h2 : sr = (P.scheme, r0) := hsch
    right
    refine ⟨r0, ?_⟩
    rw [h2]

/-- Splitting an `urlunsplit`-built URL recovers the components (with the
slash-adjusted path `fixPath`), provided they are well-formed. -/
theorem urlsplitE_unsplit (s n u q f dflt : Str) (hs : validScheme s)
    (hn : ∀ x ∈ n, netlocDelim x = false)
    (hbk : unbalancedBrackets n = false)
    (huq : ('?' : Char) ∉ u) (huh : ('#' : Char) ∉ u)
    (hqh : ('#' : Char) ∉ q) :
    urlsplitE (urlunsplit s n u q f) dflt = .ok ⟨s, n, fixPath n u, [], q, f⟩ := by
  rw [urlunsplit_decomp n u q f hs.1]
  by_cases hC : n ≠ [] ∨ (u ≠ [] ∧ u.take 2 = ['/', '/'])
  · have hfq : ('#' : Char) ∉ fixPath n u ++ optQuery q := by
      intro hm
      rcases List.mem_append.mp hm with h1 | h2
      · exact not_mem_fixPath (by decide) huh h1
      · exact not_mem_optQuery (by decide) hqh h2
    have hfr : breakDrop '#' (fixPath n u ++ (optQuery q ++ optFrag f))
        = (fixPath n u ++ optQuery q, f) := by
      rw [← List.append_assoc]
      exact breakDrop_optFrag f hfq
    have hpq : breakDrop '?' (fixPath n u ++ optQuery q) = (fixPath n u, q) :=
      breakDrop_optQuery q (not_mem_fixPath (by decide) huq)
    have hshape : fixPath n u ++ (optQuery q ++ optFrag f) = [] ∨
        ∃ c cs, fixPath n u ++ (optQuery q ++ optFrag f) = c :: cs ∧
          netlocDelim c = true := by
      by_cases hu0 : u = []
      · subst hu0
        have h0 : fixPath n ([] : Str) = [] := by
          unfold fixPath
          rw [if_neg (fun hh => hh.2.1 rfl)]
        rw [h0, List.nil_append]
        rcases qf_shape q f with h1 | ⟨c, cs, h1, h2, _⟩
        · exact Or.inl h1
        · exact Or.inr ⟨c, cs, h1, h2⟩
      · obtain ⟨t, ht⟩ := fixPath_head hC hu0
        rw [ht]
        exact Or.inr ⟨'/', t ++ (optQuery q ++ optFrag f), rfl, by decide⟩
    obtain ⟨htw, hdw⟩ := splitNetloc_exact hn hshape
    have hbody2 : netBody n u ++ (optQuery q ++ optFrag f)
        = '/' :: '/' :: (n ++ (fixPath n u ++ (optQuery q ++ optFrag f))) := by
      unfold netBody
      rw [if_pos hC, fixPath_eq_cond hC]
      simp [List.append_assoc]
    rw [hbody2]
    have hss : schemeSplit
        (s ++ ':' :: ('/' :: '/' :: (n ++ (fixPath n u ++ (optQuery q ++ optFrag f)))))
        dflt
        = (s, '/' :: '/' :: (n ++ (fixPath n u ++ (optQuery q ++ optFrag f)))) :=
      schemeSplit_of_some dflt (splitScheme_exact _ hs)
    have htk : (('/' : Char) :: '/' ::
        (n ++ (fixPath n u ++ (optQuery q ++ optFrag f)))).take 2 = ['/', '/'] := rfl
    have hdr : (('/' : Char) :: '/' ::
        (n ++ (fixPath n u ++ (optQuery q ++ optFrag f)))).drop 2
        = n ++ (fixPath n u ++ (optQuery q ++ optFrag f)) := rfl
    simp [urlsplitE, hss, htk, hdr, htw, hdw, hbk, hfr, hpq]
  · have hn0 : n = [] := by
      by_contra hne
      exact hC (Or.inl hne)
    subst hn0
    have hfix0 : fixPath ([] : Str) u = u := by
      unfold fixPath
      rw [if_neg (fun hh => hC hh.1)]
    have ht2 : ((u ++ (optQuery q ++ optFrag f)).take 2) ≠ ['/', '/'] := by
      apply take2_ne
      · intro hh
        exact hC (Or.inr hh)
      · rcases qf_shape q f with h1 | ⟨c, cs, h1, _, h3⟩
        · exact Or.inl h1
        · exact Or.inr ⟨c, cs, h1, h3⟩
    have hfq : ('#' : Char) ∉ u ++ optQuery q := by
      intro hm
      rcases List.mem_append.mp hm with h1 | h2
      · exact huh h1
      · exact not_mem_optQuery (by decide) hqh h2
    have hfr : breakDrop '#' (u ++ (optQuery q ++ optFrag f)) = (u ++ optQuery q, f) := by
      rw [← List.append_assoc]
      exact breakDrop_optFrag f hfq
    have hpq : breakDrop '?' (u ++ optQuery q) = (u, q) := breakDrop_optQuery q huq
    have hb0 : netBody ([] : Str) u = u := by
      unfold netBody
      rw [if_neg hC]
    rw [hb0]
    have hss : schemeSplit (s ++ ':' :: (u ++ (optQuery q ++ optFrag f))) dflt
        = (s, u ++ (optQuery q ++ optFrag f)) :=
      schemeSplit_of_some dflt (splitScheme_exact _ hs)
    have hub : unbalancedBrackets ([] : Str) = false := rfl
    simp [urlsplitE, hss, ht2, hub, hfr, hpq, hfix0]

theorem pathParams_mk (s n path params q f : Str) :
    pathParams ⟨s, n, path, params, q, f⟩ =
      if params ≠ [] then path ++ ';' :: params else path := rfl

theorem fixParts_mk (s n path params q f : Str) :
    fixParts ⟨s, n, path, params, q, f⟩ =
      if (n ≠ [] ∨ (pathParams ⟨s, n, path, params, q, f⟩ ≠ [] ∧
            (pathParams ⟨s, n, path, params, q, f⟩).take 2 = ['/', '/'])) ∧
         (pathParams ⟨s, n, path, params, q, f⟩ ≠ [] ∧
            (pathParams ⟨s, n, path, params, q, f⟩).take 1 ≠ (['/'] : Str)) then
        ⟨s, n, '/' :: path, params, q, f⟩
      else ⟨s, n, path, params, q, f⟩ := rfl

/-- Re-parsing `urlunparse P` of a well-formed `P` yields `fixParts P`
(identical to `P` except for a possibly slash-prepended path), for any
default scheme. -/
theorem urlparse_unparse {P : UrlParts} (dflt : Str)
    (hs : validScheme P.scheme) (hW : WFParts P) :
    urlparseE (urlunparse P) dflt = .ok (fixParts P) := by
  obtain ⟨s, n, path, params, q, f⟩ := P
  have hq1 : ('?' : Char) ∉ pathParams ⟨s, n, path, params, q, f⟩ := by
    rw [pathParams_mk]
    split
    · intro hm
      rcases List.mem_append.mp hm with h1 | h2
      · exact hW.path_nq h1
      · rcases List.mem_cons.mp h2 with he | h3
        · exact absurd he (by decide)
        · exact hW.params_nq h3
    · exact hW.path_nq
  have hh1 : ('#' : Char) ∉ pathParams ⟨s, n, path, params, q, f⟩ := by
    rw [pathParams_mk]
    split
    · intro hm
      rcases List.mem_append.mp hm with h1 | h2
      · exact hW.path_nh h1
      · rcases List.mem_cons.mp h2 with he | h3
        · exact absurd he (by decide)
        · exact hW.params_nh h3
    · exact hW.path_nh
  have hsplit := urlsplitE_unsplit s n (pathParams ⟨s, n, path, params, q, f⟩) q f dflt
    hs hW.netloc_nd hW.netloc_bal hq1 hh1 hW.query_nh
  show urlparseE (urlunsplit s n (pathParams ⟨s, n, path, params, q, f⟩) q f) dflt
    = .ok (fixParts ⟨s, n, path, params, q, f⟩)
  simp only [urlparseE, hsplit]
  by_cases hpr : params = []
  · subst hpr
    have hPP : pathParams ⟨s, n, path, [], q, f⟩ = path := by
      rw [pathParams_mk]
      exact if_neg (by simp)
    rw [hPP, fixParts_mk, hPP]
    by_cases hCC : (n ≠ [] ∨ (path ≠ [] ∧ path.take 2 = ['/', '/'])) ∧
        (path ≠ [] ∧ path.take 1 ≠ (['/'] : Str))
    · rw [if_pos hCC]
      have hfp : fixPath n path = '/' :: path := by
        unfold fixPath
        exact if_pos hCC
      rw [hfp]
      by_cases hg : s ∈ uses_params ∧ (';' : Char) ∈ ('/' :: path : Str)
      · rw [if_pos hg]
        have hns : (';' : Char) ∉ lastSeg ('/' :: path) := by
          rw [lastSeg_slash_cons]
          exact hW.params_cond1 hg.1
        rw [splitparams_noop hns]
      · rw [if_neg hg]
    · rw [if_neg hCC]
      have hfp : fixPath n path = path := by
        unfold fixPath
        exact if_neg hCC
      rw [hfp]
      by_cases hg : s ∈ uses_params ∧ (';' : Char) ∈ path
      · rw [if_pos hg]
        have hns : (';' : Char) ∉ lastSeg path := hW.params_cond1 hg.1
        rw [splitparams_noop hns]
      · rw [if_neg hg]
  · have hup : s ∈ uses_params := hW.params_cond2 hpr
    have hl0 : (';' : Char) ∉ lastSeg path := hW.params_cond1 hup
    have hPP : pathParams ⟨s, n, path, params, q, f⟩ = path ++ ';' :: params := by
      rw [pathParams_mk]
      exact if_pos hpr
    rw [hPP, fixParts_mk, hPP]
    by_cases hCC : (n ≠ [] ∨ ((path ++ ';' :: params : Str) ≠ [] ∧
          (path ++ ';' :: params : Str).take 2 = ['/', '/'])) ∧
        ((path ++ ';' :: params : Str) ≠ [] ∧
          (path ++ ';' :: params : Str).take 1 ≠ (['/'] : Str))
    · rw [if_pos hCC]
      have hfp : fixPath n (path ++ ';' :: params) = ('/' :: path) ++ ';' :: params := by
        unfold fixPath
        rw [if_pos hCC]
        rfl
      rw [hfp]
      have hg : s ∈ uses_params ∧ (';' : Char) ∈ (('/' :: path) ++ ';' :: params : Str) :=
        ⟨hup, by simp⟩
      rw [if_pos hg]
      have hls : (';' : Char) ∉ lastSeg ('/' :: path) := by
        rw [lastSeg_slash_cons]
        exact hl0
      rw [splitparams_exact hW.params_nsl hls]
    · rw [if_neg hCC]
      have hfp : fixPath n (path ++ ';' :: params) = path ++ ';' :: params := by
        unfold fixPath
        exact if_neg hCC
      rw [hfp]
      have hg : s ∈ uses_params ∧ (';' : Char) ∈ (path ++ ';' :: params : Str) :=
        ⟨hup, by simp⟩
      rw [if_pos hg]
      rw [splitparams_exact hW.params_nsl hl0]

/-- `fixParts` does not change the unparsed string. -/
theorem urlunparse_fixParts {P : UrlParts} (hs : P.scheme ≠ []) :
    urlunparse (fixParts P) = urlunparse P := by
  rw [urlunparse_eq, urlunparse_eq, fixParts_scheme, fixParts_netloc,
    fixParts_query, fixParts_fragment, pathParams_fixParts,
    urlunsplit_decomp _ _ _ _ hs, urlunsplit_decomp _ _ _ _ hs, netBody_fixPath]

/-- Parsing an `urlunsplit`-built URL keeps the (valid) scheme. -/
theorem parse_unsplit_scheme {s n u q f dflt : Str} {Q : UrlParts}
    (hs : validScheme s)
    (hQ : urlparseE (urlunsplit s n u q f) dflt = .ok Q) : Q.scheme = s := by
  obtain ⟨P, hS, _, hsc⟩ := urlparseE_netloc hQ
  obtain ⟨r0, R1, hsch, _⟩ := urlsplitE_ok_elim hS
  rw [urlunsplit_decomp n u q f hs.1,
    schemeSplit_of_some dflt (splitScheme_exact _ hs)] at hsch
  rw [hsc]
  exact ((Prod.ext_iff.mp hsch).1).symm

/-- Parsing an `urlunsplit`-built URL with a delimiter-free nonempty netloc
yields a nonempty netloc. -/
theorem parse_unsplit_netloc_ne {s n u q f dflt : Str} {Q : UrlParts}
    (hs : validScheme s) (hn : ∀ x ∈ n, netlocDelim x = false) (hne : n ≠ [])
    (hQ : urlparseE (urlunsplit s n u q f) dflt = .ok Q) : Q.netloc ≠ [] := by
  obtain ⟨P, hS, hnlQ, _⟩ := urlparseE_netloc hQ
  obtain ⟨r0, R1, hsch, hdisj, _⟩ := urlsplitE_ok_elim hS
  rw [urlunsplit_decomp n u q f hs.1,
    schemeSplit_of_some dflt (splitScheme_exact _ hs)] at hsch
  have hr0 : r0 = netBody n u ++ (optQuery q ++ optFrag f) :=
    ((Prod.ext_iff.mp hsch).2).symm
  have hC : n ≠ [] ∨ (u ≠ [] ∧ u.take 2 = ['/', '/']) := Or.inl hne
  have hbody : netBody n u ++ (optQuery q ++ optFrag f) =
      '/' :: '/' :: (n ++ (fixPath n u ++ (optQuery q ++ optFrag f))) := by
    unfold netBody
    rw [if_pos hC, fixPath_eq_cond hC]
    simp [List.append_assoc]
  rw [hbody] at hr0
  rcases hdisj with ⟨_, hN, _⟩ | ⟨ht2, _, _⟩
  · rw [hnlQ, hN, hr0]
    have hd2 : (('/' : Char) :: '/' ::
        (n ++ (fixPath n u ++ (optQuery q ++ optFrag f)))).drop 2
        = n ++ (fixPath n u ++ (optQuery q ++ optFrag f)) := rfl
    rw [hd2, takeWhile_append_all _ (fun x hx => by simp [hn x hx])]
    obtain ⟨c, t, rfl⟩ := List.exists_cons_of_ne_nil hne
    simp
  · exfalso
    apply ht2
    rw [hr0]
    rfl

/-- Combined facts about parsing an `urlunparse`-built URL. -/
theorem built_out_facts {P0 Q : UrlParts} {dflt : Str}
    (hQ : urlparseE (urlunparse P0) dflt = .ok Q)
    (hs : validScheme P0.scheme)
    (hn : ∀ x ∈ P0.netloc, netlocDelim x = false)
    (hne : P0.netloc ≠ []) :
    Q.scheme = P0.scheme ∧ Q.netloc ≠ [] := by
  rw [urlunparse_eq] at hQ
  exact ⟨parse_unsplit_scheme hs hQ, parse_unsplit_netloc_ne hs hn hne hQ⟩

theorem fragment_erase_eq {X : UrlParts} (h : X.fragment = []) :
    ({ X with fragment := ([] : Str) } : UrlParts) = X := by
  rw [← h]

/-- Key facts about the URL produced by a successful `urljoin` against an
absolute base: its scheme is explicit (hence valid), and whenever the
scheme agrees with the base scheme the authority is nonempty. -/
theorem join_out_facts {b u full : Str} {B Q : UrlParts}
    (hB : urlparseE b [] = .ok B) (hval : validScheme B.scheme)
    (hrel : B.scheme ∈ uses_relative) (hnet : B.scheme ∈ uses_netloc)
    (hbn : B.netloc ≠ []) (hbne : b ≠ [])
    (hj : urljoinE b u = .ok full)
    (hQ : urlparseE full [] = .ok Q) :
    validScheme Q.scheme ∧ (Q.scheme = B.scheme → Q.netloc ≠ []) := by
  by_cases hu : u = []
  · simp only [urljoinE, if_neg hbne, if_pos hu] at hj
    obtain rfl := Except.ok.inj hj
    rw [hB] at hQ
    obtain rfl := (Except.ok.inj hQ).symm
    exact ⟨hval, fun _ => hbn⟩
  · simp only [urljoinE, if_neg hbne, if_neg hu, hB] at hj
    rcases hU : urlparseE u B.scheme with e | U
    · rw [hU] at hj
      exact Except.noConfusion hj
    · simp only [hU] at hj
      by_cases hc1 : U.scheme ≠ B.scheme ∨ U.scheme ∉ uses_relative
      · rw [if_pos hc1] at hj
        obtain rfl := Except.ok.inj hj
        rcases urlparseE_scheme_split hQ with ⟨hnone, _⟩ | ⟨r, hsome⟩
        · rcases urlparseE_scheme_split hU with ⟨_, hUd⟩ | ⟨r2, hsome2⟩
          · exfalso
            rcases hc1 with h1 | h2
            · exact h1 hUd
            · exact h2 (by rw [hUd]; exact hrel)
          · rw [hnone] at hsome2
            exact Option.noConfusion hsome2
        · refine ⟨splitScheme_valid hsome, fun hQB => ?_⟩
          exfalso
          rcases urlparseE_scheme_split hU with ⟨hnone2, _⟩ | ⟨r2, hsome2⟩
          · rw [hnone2] at hsome
            exact Option.noConfusion hsome
          · rw [hsome] at hsome2
            have hUQ : Q.scheme = U.scheme :=
              (Prod.ext_iff.mp (Option.some.inj hsome2)).1
            rcases hc1 with h1 | h2
            · exact h1 (by rw [← hUQ]; exact hQB)
            · exact h2 (by rw [← hUQ, hQB]; exact hrel)
      · rw [if_neg hc1] at hj
        obtain ⟨hc1a, hc1b⟩ := not_or.mp hc1
        have hUB : U.scheme = B.scheme := not_not.mp hc1a
        have hsU : validScheme U.scheme := by rw [hUB]; exact hval
        have hUnet : U.scheme ∈ uses_netloc := by rw [hUB]; exact hnet
        by_cases hc2 : U.scheme ∈ uses_netloc ∧ U.netloc ≠ []
        · rw [if_pos hc2] at hj
          obtain rfl := Except.ok.inj hj
          obtain ⟨hsch, hnl⟩ :=
            built_out_facts hQ hsU ((urlparseE_wf hU).netloc_nd) hc2.2
          exact ⟨by rw [hsch]; exact hsU, fun _ => hnl⟩
        · rw [if_neg hc2] at hj
          rw [if_pos hUnet] at hj
          by_cases hc3 : U.path = [] ∧ U.params = []
          · rw [if_pos hc3] at hj
            obtain rfl := Except.ok.inj hj
            obtain ⟨hsch, hnl⟩ :=
              built_out_facts hQ hsU ((urlparseE_wf hB).netloc_nd) hbn
            exact ⟨by rw [hsch]; exact hsU, fun _ => hnl⟩
          · rw [if_neg hc3] at hj
            obtain rfl := Except.ok.inj hj
            obtain ⟨hsch, hnl⟩ :=
              built_out_facts hQ hsU ((urlparseE_wf hB).netloc_nd) hbn
            exact ⟨by rw [hsch]; exact hsU, fun _ => hnl⟩

/-- **C8** (`_normalize_url` idempotence): for any base URL `b` that parses
to an absolute http(s)-style base — a valid nonempty scheme in
`uses_relative` and `uses_netloc`, and a nonempty authority, which is the
shape `SiteCrawler` always passes as `base_url` — and for every url `u`,
if `normalize(u, b)` succeeds with result `v`, then `normalize(v, b) = v`:
normalization is idempotent. -/
theorem c8_normalize_idempotent (b u v : Str) (B : UrlParts)
    (hB : urlparseE b [] = .ok B)
    (hval : validScheme B.scheme)
    (hrel : B.scheme ∈ uses_relative)
    (hnet : B.scheme ∈ uses_netloc)
    (hbn : B.netloc ≠ [])
    (hok : normalizeE u b = .ok v) :
    normalizeE v b = .ok v := by
  have hbne : b ≠ [] := by
    intro he
    subst he
    have hcmp : urlparseE ([] : Str) ([] : Str) = .ok ⟨[], [], [], [], [], []⟩ := rfl
    rw [hcmp] at hB
    obtain rfl := (Except.ok.inj hB).symm
    exact hval.1 rfl
  rcases hj : urljoinE b u with e | full
  · rw [normalizeE, hj] at hok
    exact Except.noConfusion hok
  · rcases hp : urlparseE full [] with e2 | Q
    · rw [normalizeE, hj] at hok
      simp only [hp] at hok
      exact Except.noConfusion hok
    · rw [normalizeE, hj] at hok
      simp only [hp] at hok
      have hv : urlunparse { Q with fragment := ([] : Str) } = v := Except.ok.inj hok
      obtain ⟨hQs, hQn⟩ := join_out_facts hB hval hrel hnet hbn hbne hj hp
      have hWQ := urlparseE_wf hp
      have hWQ2 : WFParts { Q with fragment := ([] : Str) } :=
        { netloc_nd := hWQ.netloc_nd
          netloc_bal := hWQ.netloc_bal
          path_nq := hWQ.path_nq
          path_nh := hWQ.path_nh
          params_nsl := hWQ.params_nsl
          params_nq := hWQ.params_nq
          params_nh := hWQ.params_nh
          query_nh := hWQ.query_nh
          params_cond1 := hWQ.params_cond1
          params_cond2 := hWQ.params_cond2 }
      have hs2 : validScheme ({ Q with fragment := ([] : Str) } : UrlParts).scheme := hQs
      have hRTb := urlparse_unparse (P := { Q with fragment := ([] : Str) })
        B.scheme hs2 hWQ2
      have hRT0 := urlparse_unparse (P := { Q with fragment := ([] : Str) })
        [] hs2 hWQ2
      have hvne : urlunparse { Q with fragment := ([] : Str) } ≠ [] := by
        rw [urlunparse_eq, urlunsplit_decomp _ _ _ _ hQs.1]
        simp
      have hjoin2 : urljoinE b (urlunparse { Q with fragment := ([] : Str) })
          = .ok (urlunparse { Q with fragment := ([] : Str) }) := by
        simp only [urljoinE, if_neg hbne, if_neg hvne, hB, hRTb]
        have hfs : (fixParts { Q with fragment := ([] : Str) }).scheme = Q.scheme :=
          fixParts_scheme _
        by_cases hA : Q.scheme = B.scheme
        · have hcond1 : ¬((fixParts { Q with fragment := ([] : Str) }).scheme ≠ B.scheme ∨
              (fixParts { Q with fragment := ([] : Str) }).scheme ∉ uses_relative) := by
            rw [hfs, hA]
            simp [hrel]
          rw [if_neg hcond1]
          have hcond2 : (fixParts { Q with fragment := ([] : Str) }).scheme ∈ uses_netloc ∧
              (fixParts { Q with fragment := ([] : Str) }).netloc ≠ [] := by
            constructor
            · rw [hfs, hA]
              exact hnet
            · rw [fixParts_netloc]
              exact hQn hA
          rw [if_pos hcond2]
          have heta : (⟨(fixParts { Q with fragment := ([] : Str) }).scheme,
              (fixParts { Q with fragment := ([] : Str) }).netloc,
              (fixParts { Q with fragment := ([] : Str) }).path,
              (fixParts { Q with fragment := ([] : Str) }).params,
              (fixParts { Q with fragment := ([] : Str) }).query,
              (fixParts { Q with fragment := ([] : Str) }).fragment⟩ : UrlParts)
              = fixParts { Q with fragment := ([] : Str) } := rfl
          rw [heta,
            urlunparse_fixParts (P := { Q with fragment := ([] : Str) }) hQs.1]
        · rw [if_pos (Or.inl (by rw [hfs]; exact hA))]
      rw [hv] at hjoin2
      have hRT0v : urlparseE v [] = .ok (fixParts { Q with fragment := ([] : Str) }) := by
        rw [← hv]
        exact hRT0
      rw [normalizeE, hjoin2]
      simp only [hRT0v]
      rw [fragment_erase_eq (by rw [fixParts_fragment]),
        urlunparse_fixParts (P := { Q with fragment := ([] : Str) }) hQs.1, hv]

/-- Witness for C8: base `http://a`, url `p`; the first normalization gives
`http://a/p` and normalizing that again returns it unchanged. -/
theorem c8_normalize_idempotent_witness :
    urlparseE ['h', 't', 't', 'p', ':', '/', '/', 'a'] [] =
      .ok ⟨['h', 't', 't', 'p'], ['a'], [], [], [], []⟩ ∧
    validScheme ['h', 't', 't', 'p'] ∧
    ['h', 't', 't', 'p'] ∈ uses_relative ∧
    ['h', 't', 't', 'p'] ∈ uses_netloc ∧
    (['a'] : Str) ≠ [] ∧
    normalizeE ['p'] ['h', 't', 't', 'p', ':', '/', '/', 'a'] =
      .ok ['h', 't', 't', 'p', ':', '/', '/', 'a', '/', 'p'] ∧
    normalizeE ['h', 't', 't', 'p', ':', '/', '/', 'a', '/', 'p']
      ['h', 't', 't', 'p', ':', '/', '/', 'a'] =
      .ok ['h', 't', 't', 'p', ':', '/', '/', 'a', '/', 'p'] := by
  refine ⟨rfl, ?_, by decide, by decide, by decide, rfl, ?_⟩
  · refine ⟨by decide, ?_, by decide, by decide⟩
    intro c cs h
    injection h with h1 _
    rw [← h1]
    decide
  · apply c8_normalize_idempotent
      ['h', 't', 't', 'p', ':', '/', '/', 'a'] ['p']
      ['h', 't', 't', 'p', ':', '/', '/', 'a', '/', 'p']
      ⟨['h', 't', 't', 'p'], ['a'], [], [], [], []⟩ rfl
    · refine ⟨by decide, ?_, by decide, by decide⟩
      intro c cs h
      injection h with h1 _
      rw [← h1]
      decide
    · decide
    · decide
    · decide
    · rfl

end SiteHealth
